import Mathlib

/-!
# Aquaform: a verified shallow embedding of the reconciliation engine

This file embeds the core of the `aquaform` schema reconciler
(`src/aquaform.py`, with the MySQL twin `src/aquaformmy.py` sharing the same
engine): the table data model with its dict (de)serialisation, the diff
algorithm `_compare_tables`, the dependency graph and DFS topological sort,
the planner, the apply/destroy drivers, the `${VAR}` resolver and the YAML
config loader.  Backend DDL execution is abstracted by an oracle
`ok : Op → Bool` deciding the success of each adapter call, exactly the
boolean the Python adapters return; everything else is modelled faithfully,
statement by statement.  Python dicts keyed by strings are modelled as
association lists in insertion order (`lookupA`/`putA`/`removeA` mirror
`d[k]`, `d[k] = v`, `del d[k]`).
-/

namespace Aqua

/-! ## Data model (`Column`, `ForeignKey`, `Table` dataclasses) -/

/-- `Column` dataclass: `name`, `type`, `nullable`, optional `default`. -/
structure Column where
  name : String
  type : String
  nullable : Bool
  default : Option String
deriving DecidableEq, Repr

/-- `ForeignKey` dataclass. -/
structure ForeignKey where
  columns : List String
  reference_table : String
  reference_columns : List String
  on_delete : String
  on_update : String
deriving DecidableEq, Repr

/-- `Table` dataclass for the Supabase backend.  `foreign_keys` defaults to
Python `None`, modelled as `Option`; `foreign_keys = some []` and
`foreign_keys = none` are distinct values, both falsy in Python. -/
structure Table where
  name : String
  url : String
  key : String
  columns : List Column
  primary_key : List String
  foreign_keys : Option (List ForeignKey)
  resource_id : String
deriving DecidableEq, Repr

/-- Truthiness of the `foreign_keys` field (`if self.foreign_keys:`):
`None` and `[]` are falsy. -/
def fksTruthy : Option (List ForeignKey) → Bool
  | none => false
  | some [] => false
  | some (_ :: _) => true

/-- `old_table.foreign_keys or []`. -/
def fksOrNil (t : Table) : List ForeignKey := t.foreign_keys.getD []

/-! ## Dict layer

JSON/YAML values flowing through `to_dict` / `from_dict` and the state file.
A value that may be a bare string or a list of strings (`primary_key`,
`foreign_key.columns`, `foreign_key.reference_columns`). -/

inductive StrOrList where
  | str (s : String)
  | list (l : List String)
deriving DecidableEq, Repr

/-- `data['x'] if isinstance(data['x'], list) else [data['x']]`. -/
def StrOrList.norm : StrOrList → List String
  | .str s => [s]
  | .list l => l

/-- Dict shape produced by `Column.to_dict`: the `default` key is present
iff the default is not `None`. -/
structure ColumnDict where
  name : String
  type : String
  nullable : Bool
  default : Option String
deriving DecidableEq, Repr

/-- Dict shape produced by `ForeignKey.to_dict` (all five keys written);
read back by `ForeignKey.from_dict`, where `on_delete` / `on_update` may be
absent and default to `"NO ACTION"`. -/
structure ForeignKeyDict where
  columns : StrOrList
  reference_table : String
  reference_columns : StrOrList
  on_delete : Option String
  on_update : Option String
deriving DecidableEq, Repr

/-- Dict shape of a recorded table descriptor (what `Table.to_dict` writes
into the state file): the `foreign_keys` key is present iff the table's
`foreign_keys` field is truthy. -/
structure TableDict where
  name : String
  url : String
  key : String
  columns : List ColumnDict
  primary_key : StrOrList
  foreign_keys : Option (List ForeignKeyDict)
deriving DecidableEq, Repr

/-- `Column.to_dict`. -/
def Column.to_dict (c : Column) : ColumnDict :=
  ⟨c.name, c.type, c.nullable, c.default⟩

/-- `ForeignKey.to_dict`: writes all five fields. -/
def ForeignKey.to_dict (fk : ForeignKey) : ForeignKeyDict :=
  ⟨.list fk.columns, fk.reference_table, .list fk.reference_columns,
   some fk.on_delete, some fk.on_update⟩

/-- `Table.to_dict`: omits the `foreign_keys` key when the field is falsy
(`if self.foreign_keys:`). -/
def Table.to_dict (t : Table) : TableDict :=
  { name := t.name
    url := t.url
    key := t.key
    columns := t.columns.map Column.to_dict
    primary_key := .list t.primary_key
    foreign_keys :=
      if fksTruthy t.foreign_keys then
        some ((t.foreign_keys.getD []).map ForeignKey.to_dict)
      else none }

/-- `Column.from_dict` on a well-shaped dict. -/
def Column.from_dict (d : ColumnDict) : Column :=
  ⟨d.name, d.type, d.nullable, d.default⟩

/-- `ForeignKey.from_dict` on a well-shaped dict. -/
def ForeignKey.from_dict (d : ForeignKeyDict) : ForeignKey :=
  ⟨d.columns.norm, d.reference_table, d.reference_columns.norm,
   d.on_delete.getD "NO ACTION", d.on_update.getD "NO ACTION"⟩

/-- `Table.from_dict(resource_id, data)` on a well-shaped dict (the shape
`Table.to_dict` writes and the state store records): `foreign_keys` stays
`None` when the key is absent. -/
def Table.from_dict (resource_id : String) (d : TableDict) : Table :=
  { name := d.name
    url := d.url
    key := d.key
    columns := d.columns.map Column.from_dict
    primary_key := d.primary_key.norm
    foreign_keys := d.foreign_keys.map (fun l => l.map ForeignKey.from_dict)
    resource_id := resource_id }

/-! ## Association lists: Python dicts in insertion order -/

/-- `d.get(k)` / `d[k]`. -/
def lookupA {κ α : Type} [DecidableEq κ] : List (κ × α) → κ → Option α
  | [], _ => none
  | (k', v) :: rest, k => if k' = k then some v else lookupA rest k

/-- `k in d`. -/
def containsA {κ α : Type} [DecidableEq κ] (m : List (κ × α)) (k : κ) : Bool :=
  (lookupA m k).isSome

/-- `d[k] = v`: replace in place if the key exists (keeping its position),
else append — Python dict insertion semantics. -/
def putA {κ α : Type} [DecidableEq κ] : List (κ × α) → κ → α → List (κ × α)
  | [], k, v => [(k, v)]
  | (k', v') :: rest, k, v =>
    if k' = k then (k, v) :: rest else (k', v') :: putA rest k v

/-- `del d[k]` (keys are unique in a dict, so removing the first
occurrence is exact). -/
def removeA {κ α : Type} [DecidableEq κ] : List (κ × α) → κ → List (κ × α)
  | [], _ => []
  | (k', v') :: rest, k =>
    if k' = k then rest else (k', v') :: removeA rest k

/-- `list(d.keys())`. -/
def keysA {κ α : Type} (m : List (κ × α)) : List κ := m.map Prod.fst

/-- `{f(a): a for a in l}` — dict comprehension keyed by `f`, later entries
overwriting earlier values while keeping the first key position. -/
def mapByKey {κ α : Type} [DecidableEq κ] (f : α → κ) (l : List α) : List (κ × α) :=
  l.foldl (fun m a => putA m (f a) a) []

/-! ## Diff engine (`Aquaform._compare_tables`) -/

/-- `Column.equals`: field-wise comparison. -/
def Column.equalsB (a b : Column) : Bool :=
  a.name == b.name && a.type == b.type && a.nullable == b.nullable &&
  a.default == b.default

/-- `ForeignKey.equals`: field-wise comparison. -/
def ForeignKey.equalsB (a b : ForeignKey) : Bool :=
  a.columns == b.columns && a.reference_table == b.reference_table &&
  a.reference_columns == b.reference_columns &&
  a.on_delete == b.on_delete && a.on_update == b.on_update

/-- The delta dict built by `_compare_tables`.  A key absent from the
Python dict is the empty list / `none` here. -/
structure TableChanges where
  add_columns : List Column
  modify_columns : List (Column × Column)
  remove_columns : List Column
  modify_primary_key : Option (List String × List String)
  add_foreign_keys : List ForeignKey
  remove_foreign_keys : List ForeignKey
deriving DecidableEq, Repr

/-- `if table_changes:` — the Python dict is non-empty exactly when some
component is non-empty (every key is only ever created non-empty). -/
def TableChanges.nonEmpty (c : TableChanges) : Bool :=
  !c.add_columns.isEmpty || !c.modify_columns.isEmpty ||
  !c.remove_columns.isEmpty || c.modify_primary_key.isSome ||
  !c.add_foreign_keys.isEmpty || !c.remove_foreign_keys.isEmpty

/-- One step of the "modified entries" loops of `_compare_tables`: for an
entry of the new map whose key is also in the old map and whose value
fails the `equals` test against the old value, yield the `(old, new)`
pair; otherwise nothing. -/
def changedPair {κ α : Type} [DecidableEq κ] (old : List (κ × α)) (eqB : α → α → Bool)
    (p : κ × α) : Option (α × α) :=
  match lookupA old p.1 with
  | some o => if eqB p.2 o then none else some (o, p.2)
  | none => none

/-- `Aquaform._compare_tables(old_table, new_table)`.  Columns are compared
through name-keyed dicts, foreign keys through dicts keyed by the tuple of
their owning columns.  A foreign key present on both sides with other
fields differing is emitted as removal of the old plus addition of the new
(drop-recreate), appended after the fresh additions and before the
old-only removals, exactly as the Python loops do. -/
def compare_tables (old_table new_table : Table) : TableChanges :=
  let old_columns_map := mapByKey Column.name old_table.columns
  let new_columns_map := mapByKey Column.name new_table.columns
  let add_columns :=
    (new_columns_map.filter (fun p => !containsA old_columns_map p.1)).map Prod.snd
  let modify_columns :=
    new_columns_map.filterMap (changedPair old_columns_map Column.equalsB)
  let remove_columns :=
    (old_columns_map.filter (fun p => !containsA new_columns_map p.1)).map Prod.snd
  let modify_primary_key :=
    if old_table.primary_key = new_table.primary_key then none
    else some (old_table.primary_key, new_table.primary_key)
  let fkPair :=
    if fksTruthy old_table.foreign_keys || fksTruthy new_table.foreign_keys then
      let old_fks_map := mapByKey ForeignKey.columns (fksOrNil old_table)
      let new_fks_map := mapByKey ForeignKey.columns (fksOrNil new_table)
      let add_fks :=
        (new_fks_map.filter (fun p => !containsA old_fks_map p.1)).map Prod.snd
      let changed := new_fks_map.filterMap (changedPair old_fks_map ForeignKey.equalsB)
      let remove_fks :=
        (old_fks_map.filter (fun p => !containsA new_fks_map p.1)).map Prod.snd
      (add_fks ++ changed.map Prod.snd, changed.map Prod.fst ++ remove_fks)
    else ([], [])
  ⟨add_columns, modify_columns, remove_columns, modify_primary_key,
   fkPair.1, fkPair.2⟩

/-! ## Dependency graph and topological sort -/

/-- `graph[k].append(v)` — append `v` to the adjacency list of an existing
key `k` (every table name is a key by construction). -/
def appendEdge : List (String × List String) → String → String → List (String × List String)
  | [], _, _ => []
  | (k', vs) :: rest, k, v =>
    if k' = k then (k', vs ++ [v]) :: rest else (k', vs) :: appendEdge rest k v

/-- `{table.name: [] for table in self.tables.values()}`. -/
def graphInit (tables : List (String × Table)) : List (String × List String) :=
  tables.foldl (fun g p => putA g p.2.name []) []

/-- The foreign-key pass of `_build_dependency_graph`: for each table and
each of its foreign keys, append an edge `table.name → reference_table`
when the referenced name is a node of the graph. -/
def graphEdges (tables : List (String × Table)) (g0 : List (String × List String)) :
    List (String × List String) :=
  tables.foldl (fun g p =>
    (fksOrNil p.2).foldl (fun g fk =>
      if containsA g fk.reference_table then appendEdge g p.2.name fk.reference_table
      else g) g) g0

/-- `Aquaform._build_dependency_graph` (the second "add missing nodes" loop
of the source is a no-op and is omitted; `resource_to_table` is computed
but never used). -/
def buildGraph (tables : List (String × Table)) : List (String × List String) :=
  graphEdges tables (graphInit tables)

/-- `graph.get(node, [])`. -/
def nbrs (g : List (String × List String)) (n : String) : List String :=
  (lookupA g n).getD []

/-- The recursive `visit` of `_topological_sort`.  The Python `visited` set
and `result` list are always extended together, so a single `res` list
serves as both; `temp` is the `temp_visited` set along the DFS stack.  The
`fuel` argument bounds the recursion depth for Lean termination; the sort
below passes more fuel than any DFS over the finite graph can consume. -/
def visitD (g : List (String × List String)) :
    Nat → List String → String → List String → List String
  | 0, _, _, res => res
  | fuel + 1, temp, node, res =>
    if node ∈ res then res
    else if node ∈ temp then res
    else
      ((nbrs g node).foldl (fun r m => visitD g fuel (node :: temp) m r) res) ++ [node]

/-- `Aquaform._topological_sort`: DFS post-order, dependencies first. -/
def topoSort (g : List (String × List String)) : List String :=
  (keysA g).foldl
    (fun res n => if n ∈ res then res else visitD g (g.length + 1) [] n res) []

/-- Bounded reachability along graph edges: `reachB g fuel a b` holds when
there is a path of between 1 and `fuel` edges from `a` to `b`. -/
def reachB (g : List (String × List String)) : Nat → String → String → Bool
  | 0, _, _ => false
  | fuel + 1, a, b => (nbrs g a).any (fun c => c == b || reachB g fuel c b)

/-- Acyclicity of a dependency graph: no node reaches itself.  Over the
finite graph, paths longer than `g.length + 1` edges revisit a node, so
this fuel is exhaustive. -/
def acyclicB (g : List (String × List String)) : Bool :=
  (keysA g).all (fun n => !(reachB g (g.length + 1) n n))

/-! ## Planner (`Aquaform.plan`) -/

/-- A planned change: `{'action': 'create' | 'update' | 'delete', ...}`. -/
inductive Change where
  | create (table : Table)
  | update (table : Table) (changes : TableChanges)
  | delete (table_name : String)
deriving DecidableEq, Repr

/-- `Aquaform.plan`: one pass over the desired resources (create when the
resource id has no state entry, update when the recorded descriptor parsed
back into a `Table` diffs non-empty, nothing when the diff is empty),
followed by a delete for every state resource id absent from the desired
map, carrying the recorded name.  The result dict is modelled as the
association list in insertion order. -/
def plan (tables : List (String × Table)) (st : List (String × TableDict)) :
    List (String × Change) :=
  (tables.filterMap (fun p =>
    match lookupA st p.1 with
    | none => some (p.1, Change.create p.2)
    | some cur =>
      let tc := compare_tables (Table.from_dict p.1 cur) p.2
      if tc.nonEmpty then some (p.1, Change.update p.2 tc) else none))
  ++ (st.filterMap (fun p =>
    if containsA tables p.1 then none else some (p.1, Change.delete p.2.name)))

/-! ## Reconciler (`Aquaform.apply` / `Aquaform.destroy`)

Adapter calls are abstracted by an oracle `ok : Op → Bool` giving the
boolean each `SupabaseClient` method returns; `_resolve_vars` and client
construction do not affect state or ordering and are modelled separately
(`resolve_vars` below). -/

/-- One adapter DDL operation, identified by the table name it targets. -/
inductive Op where
  | createT (table_name : String)
  | alterT (table_name : String)
  | dropT (table_name : String)
deriving DecidableEq, Repr

/-- The adapter operation a planned change gives rise to. -/
def opOf : Change → Op
  | Change.create t => Op.createT t.name
  | Change.update t _ => Op.alterT t.name
  | Change.delete n => Op.dropT n

/-- Outcome of an apply/destroy run: the final state-store contents, the
adapter operations attempted in order, and whether `save_state` ran. -/
structure RunResult where
  state : List (String × TableDict)
  ops : List Op
  saved : Bool
deriving DecidableEq, Repr

/-- `update_actions`: planned updates regrouped by table name (later
same-name entries overwrite earlier ones). -/
def groupUpdates (changes : List (String × Change)) :
    List (String × (String × Table × TableChanges)) :=
  changes.foldl (fun m p =>
    match p.2 with
    | Change.update t tc => putA m t.name (p.1, t, tc)
    | _ => m) []

/-- `create_actions`: planned creates regrouped by table name. -/
def groupCreates (changes : List (String × Change)) :
    List (String × (String × Table)) :=
  changes.foldl (fun m p =>
    match p.2 with
    | Change.create t => putA m t.name (p.1, t)
    | _ => m) []

/-- `delete_actions`: planned deletes regrouped by table name. -/
def groupDeletes (changes : List (String × Change)) : List (String × String) :=
  changes.foldl (fun m p =>
    match p.2 with
    | Change.delete n => putA m n p.1
    | _ => m) []

/-- Apply phase 1: walk the topological order; for each table with a
pending update run `alter_table`; on success `state[rid] = table.to_dict()`. -/
def updatePhase (ua : List (String × (String × Table × TableChanges)))
    (ok : Op → Bool) (order : List String)
    (acc : List (String × TableDict) × List Op) :
    List (String × TableDict) × List Op :=
  order.foldl (fun acc name =>
    match lookupA ua name with
    | none => acc
    | some (rid, t, _) =>
      if ok (Op.alterT name) then (putA acc.1 rid t.to_dict, acc.2 ++ [Op.alterT name])
      else (acc.1, acc.2 ++ [Op.alterT name])) acc

/-- Apply phase 2: creates, in topological order. -/
def createPhase (ca : List (String × (String × Table))) (ok : Op → Bool)
    (order : List String) (acc : List (String × TableDict) × List Op) :
    List (String × TableDict) × List Op :=
  order.foldl (fun acc name =>
    match lookupA ca name with
    | none => acc
    | some (rid, t) =>
      if ok (Op.createT name) then (putA acc.1 rid t.to_dict, acc.2 ++ [Op.createT name])
      else (acc.1, acc.2 ++ [Op.createT name])) acc

/-- Apply phase 3: deletes.  `aquaform.py` walks the topological order
FORWARD here (dependencies first); the recorded descriptor is looked up to
build the client, and on success the resource is removed from state. -/
def deletePhase (da : List (String × String)) (ok : Op → Bool)
    (order : List String) (acc : List (String × TableDict) × List Op) :
    List (String × TableDict) × List Op :=
  order.foldl (fun acc name =>
    match lookupA da name with
    | none => acc
    | some rid =>
      match lookupA acc.1 rid with
      | none => acc
      | some _ =>
        if ok (Op.dropT name) then (removeA acc.1 rid, acc.2 ++ [Op.dropT name])
        else (acc.1, acc.2 ++ [Op.dropT name])) acc

/-- `Aquaform.apply`: plan, return early on an empty plan (without
saving), otherwise regroup by table name, run the three phases over the
topological order, then `save_state`. -/
def applyRun (tables : List (String × Table)) (st : List (String × TableDict))
    (ok : Op → Bool) : RunResult :=
  let changes := plan tables st
  if changes.isEmpty then ⟨st, [], false⟩
  else
    let order := topoSort (buildGraph tables)
    let r := deletePhase (groupDeletes changes) ok order
      (createPhase (groupCreates changes) ok order
        (updatePhase (groupUpdates changes) ok order (st, [])))
    ⟨r.1, r.2, true⟩

/-- `Aquaform.destroy(resource_id)` with a resource id: unknown id returns
without touching anything; otherwise drop, and only on success remove the
resource and `save_state`. -/
def destroyOne (st : List (String × TableDict)) (resource_id : String)
    (ok : Op → Bool) : RunResult :=
  match lookupA st resource_id with
  | none => ⟨st, [], false⟩
  | some cur =>
    if ok (Op.dropT cur.name) then ⟨removeA st resource_id, [Op.dropT cur.name], true⟩
    else ⟨st, [Op.dropT cur.name], false⟩

/-- `table_name_to_resource`: desired tables first (later same-name
entries overwrite), then state entries whose (truthy) recorded name is not
already mapped. -/
def nameToResource (tables : List (String × Table))
    (st : List (String × TableDict)) : List (String × String) :=
  st.foldl (fun m p =>
    if p.2.name ≠ "" && !containsA m p.2.name then putA m p.2.name p.1 else m)
    (tables.foldl (fun m p => putA m p.2.name p.1) [])

/-- `Aquaform.destroy()` with no resource id: walk the topological order
FORWARD (the source keeps the dependencies-first order), dropping each
mapped, still-recorded table; remove from state on success; `save_state`
at the end — unless the name map is empty, in which case return early
without saving. -/
def destroyAll (tables : List (String × Table)) (st : List (String × TableDict))
    (ok : Op → Bool) : RunResult :=
  let order := topoSort (buildGraph tables)
  let nm := nameToResource tables st
  if nm.isEmpty then ⟨st, [], false⟩
  else
    let r := order.foldl (fun (acc : List (String × TableDict) × List Op) name =>
      match lookupA nm name with
      | none => acc
      | some rid =>
        match lookupA acc.1 rid with
        | none => acc
        | some _ =>
          if ok (Op.dropT name) then (removeA acc.1 rid, acc.2 ++ [Op.dropT name])
          else (acc.1, acc.2 ++ [Op.dropT name])) (st, [])
    ⟨r.1, r.2, true⟩

/-! ## Variable resolver (`Aquaform._resolve_vars`)

Connection-string values are modelled as `List Char` so that the
`startswith`/`endswith`/slicing structure of the source is explicit. -/

/-- One field of `_resolve_vars`: if the value starts with `"${"` and ends
with `"}"`, look the inner slice `value[2:-1]` up in the environment,
falling back to the unchanged value (`os.environ.get(env_var, value)`);
otherwise return the value unchanged. -/
def resolveField (env : List Char → Option (List Char)) (s : List Char) : List Char :=
  if ['$', '{'].isPrefixOf s && ['}'].isSuffixOf s then
    match env ((s.drop 2).dropLast) with
    | some v => v
    | none => s
  else s

/-- `Aquaform._resolve_vars(url, key)`: each field resolved independently;
the inputs are not mutated (the function returns a fresh pair). -/
def resolve_vars (env : List Char → Option (List Char)) (url key : List Char) :
    List Char × List Char :=
  (resolveField env url, resolveField env key)

/-! ## Config loader (`Aquaform._load_config`)

Raw YAML descriptors: any key may be missing (`Option`), and accessing a
missing required key raises `KeyError`, which the loader catches per
resource. -/

/-- A raw column descriptor. -/
structure RawColumn where
  name : Option String
  type : Option String
  nullable : Option Bool
  default : Option String
deriving DecidableEq, Repr

/-- A raw foreign-key descriptor. -/
structure RawForeignKey where
  columns : Option StrOrList
  reference_table : Option String
  reference_columns : Option StrOrList
  on_delete : Option String
  on_update : Option String
deriving DecidableEq, Repr

/-- A raw resource descriptor with its `type` discriminator. -/
structure RawResource where
  type : Option String
  name : Option String
  url : Option String
  key : Option String
  columns : Option (List RawColumn)
  primary_key : Option StrOrList
  foreign_keys : Option (List RawForeignKey)
deriving DecidableEq, Repr

/-- `Column.from_dict` on a raw descriptor: `none` models `KeyError` on a
missing required key. -/
def Column.fromRaw (d : RawColumn) : Option Column := do
  let n ← d.name
  let ty ← d.type
  let nu ← d.nullable
  pure ⟨n, ty, nu, d.default⟩

/-- `ForeignKey.from_dict` on a raw descriptor. -/
def ForeignKey.fromRaw (d : RawForeignKey) : Option ForeignKey := do
  let cols ← d.columns
  let rt ← d.reference_table
  let rcols ← d.reference_columns
  pure ⟨cols.norm, rt, rcols.norm, d.on_delete.getD "NO ACTION",
        d.on_update.getD "NO ACTION"⟩

/-- `Table.from_dict(resource_id, data)` on a raw descriptor: all columns
are parsed, then foreign keys when the key is present, then the scalar
required keys; any missing required key anywhere yields `none`
(`KeyError`). -/
def Table.fromRaw (resource_id : String) (d : RawResource) : Option Table := do
  let rcols ← d.columns
  let cols ← rcols.mapM Column.fromRaw
  let fks ← match d.foreign_keys with
            | none => pure none
            | some fl => (fl.mapM ForeignKey.fromRaw).map some
  let n ← d.name
  let u ← d.url
  let k ← d.key
  let pk ← d.primary_key
  pure ⟨n, u, k, cols, pk.norm, fks, resource_id⟩

/-- `Aquaform._load_config` on a parsed `resources` mapping: descriptors
whose `type` is not `supabase_table` are ignored; a descriptor with a
missing required key is reported and skipped; an accepted descriptor is
stored in `self.tables` under its resource id (replacing any earlier
entry).  No further validation is performed. -/
def loadConfig (resources : List (String × RawResource))
    (tables : List (String × Table)) : List (String × Table) :=
  resources.foldl (fun acc p =>
    if p.2.type = some "supabase_table" then
      match Table.fromRaw p.1 p.2 with
      | some t => putA acc p.1 t
      | none => acc
    else acc) tables

/-- The spec's §3 invariants on a loaded table, as stated in spec.md:
column names unique; every `primary_key` entry names an existing column;
every `foreign_key.columns` entry names an existing column of the owning
table; `reference_columns` has the same length as `columns`.  (Spec-side
definition, used to check whether the loader enforces them.) -/
def sec3Invariants (t : Table) : Prop :=
  (t.columns.map Column.name).Nodup ∧
  (∀ c ∈ t.primary_key, c ∈ t.columns.map Column.name) ∧
  (∀ fk ∈ fksOrNil t,
    (∀ c ∈ fk.columns, c ∈ t.columns.map Column.name) ∧
    fk.reference_columns.length = fk.columns.length)

instance (t : Table) : Decidable (sec3Invariants t) := by
  unfold sec3Invariants; infer_instance

/-- Boolean list membership by decidable equality (used in statements to
keep one uniform equality test). -/
def memB {κ : Type} [DecidableEq κ] (k : κ) (l : List κ) : Bool := decide (k ∈ l)

/-- A produced order is dependency-closed and dependency-sorted: every
emitted node's neighbours (its dependencies) are emitted earlier. -/
def Good (g : List (String × List String)) (res : List String) : Prop :=
  ∀ a ∈ res, ∀ b ∈ nbrs g a, b ∈ res ∧ List.indexOf b res < List.indexOf a res

/-- The `temp_visited` stack is a chain of edges down to the current node:
its head has an edge to the node, and so on up the stack. -/
def ChainTo (g : List (String × List String)) : List String → String → Prop
  | [], _ => True
  | p :: rest, n => n ∈ nbrs g p ∧ ChainTo g rest p

/-- Spec-side formula for the "modified entry" at `c`: look the unique
old entry with `c`'s key up directly in `old` (order-independent) and
yield the `(old, new)` pair when the `equals` test fails.  Used to state
order-stability: the diff's modification lists are `filterMap`s of this
over `new` in its order of appearance. -/
def changedAt {κ α : Type} [DecidableEq κ] (f : α → κ) (eqB : α → α → Bool)
    (old : List α) (c : α) : Option (α × α) :=
  match old.find? (fun a => f a == f c) with
  | some oc => if eqB c oc then none else some (oc, c)
  | none => none

/-! ## Concrete instances used to evaluate the model on claim inputs -/

/-- A primary-key column shared by the sample tables. -/
def colId : Column := ⟨"id", "UUID", false, none⟩

/-- Foreign key of table `A` referencing table `B`. -/
def fkAB : ForeignKey := ⟨["b_id"], "B", ["id"], "CASCADE", "NO ACTION"⟩

/-- Sample table `A`, which references `B`. -/
def tabA : Table :=
  ⟨"A", "u", "k", [colId, ⟨"b_id", "UUID", false, none⟩], ["id"], some [fkAB], "ra"⟩

/-- Sample table `B`, referenced by `A`. -/
def tabB : Table := ⟨"B", "u", "k", [colId], ["id"], none, "rb"⟩

/-- A state recording `A` and `B` under their own resource ids. -/
def stateAB : List (String × TableDict) := [("ra", tabA.to_dict), ("rb", tabB.to_dict)]

/-- A desired set holding `A` and `B` under fresh resource ids, so that the
old recorded ids plan as deletes. -/
def desiredXY : List (String × Table) := [("x", tabA), ("y", tabB)]

/-- A state recording `A` and `B` under resource ids absent from
`desiredXY`. -/
def stateOld : List (String × TableDict) := [("oldA", tabA.to_dict), ("oldB", tabB.to_dict)]

/-- Foreign keys for the diff order-stability check: `fkN` is recorded;
`fkN'` is the desired version of the same column tuple with a different
`on_delete` (a drop-recreate); `fkR` is recorded only; `fkF` is fresh. -/
def fkN : ForeignKey := ⟨["a"], "T", ["x"], "NO ACTION", "NO ACTION"⟩

/-- Desired drop-recreate twin of `fkN`. -/
def fkN' : ForeignKey := ⟨["a"], "T", ["x"], "CASCADE", "NO ACTION"⟩

/-- Recorded-only foreign key. -/
def fkR : ForeignKey := ⟨["b"], "U", ["y"], "NO ACTION", "NO ACTION"⟩

/-- Fresh desired foreign key. -/
def fkF : ForeignKey := ⟨["c"], "V", ["z"], "NO ACTION", "NO ACTION"⟩

/-- Recorded table for the order-stability check: foreign keys `[fkR, fkN]`. -/
def oldT9 : Table := ⟨"t", "u", "k", [colId], ["id"], some [fkR, fkN], "r"⟩

/-- Desired table for the order-stability check: foreign keys `[fkN', fkF]`. -/
def newT9 : Table := ⟨"t", "u", "k", [colId], ["id"], some [fkN', fkF], "r"⟩

/-- Two resources that resolve to the same table name `t`. -/
def tabR1 : Table := ⟨"t", "u", "k", [colId], ["id"], none, "r1"⟩

/-- Second resource with table name `t` (different connection). -/
def tabR2 : Table := ⟨"t", "u2", "k2", [colId], ["id"], none, "r2"⟩

/-- A raw descriptor whose `primary_key` names a column that does not
exist — it violates the §3 invariants but has every required key. -/
def badRes : RawResource :=
  ⟨some "supabase_table", some "t", some "u", some "k",
   some [⟨some "id", some "UUID", some false, none⟩], some (.str "nonexistent"), none⟩

/-- The table the loader builds from `badRes`. -/
def badTable : Table :=
  ⟨"t", "u", "k", [⟨"id", "UUID", false, none⟩], ["nonexistent"], none, "r1"⟩

/-- A raw descriptor with the required `name` key missing. -/
def badKeyRes : RawResource :=
  ⟨some "supabase_table", none, some "u", some "k",
   some [⟨some "id", some "UUID", some false, none⟩], some (.list ["id"]), none⟩

/-- Concrete environment for the resolver check: defines only `X`. -/
def envX : List Char → Option (List Char) :=
  fun s => if s = ['X'] then some ['v'] else none

/-- A well-formed raw descriptor. -/
def goodRes : RawResource :=
  ⟨some "supabase_table", some "g", some "u", some "k",
   some [⟨some "id", some "UUID", some false, none⟩], some (.list ["id"]), none⟩

/-- The table the loader builds from `goodRes`. -/
def goodTable : Table :=
  ⟨"g", "u", "k", [⟨"id", "UUID", false, none⟩], ["id"], none, "rg"⟩

/-! ## Lemmas about association lists -/

theorem lookupA_isSome_iff {κ α : Type} [DecidableEq κ] (m : List (κ × α)) (k : κ) :
    (lookupA m k).isSome = true ↔ k ∈ keysA m := by
  induction m with
  | nil => simp [lookupA, keysA]
  | cons p rest ih =>
    by_cases h : p.1 = k
    · subst h; simp [lookupA, keysA]
    · simpa [lookupA, keysA, h, Ne.symm h] using ih

theorem containsA_iff {κ α : Type} [DecidableEq κ] (m : List (κ × α)) (k : κ) :
    containsA m k = true ↔ k ∈ keysA m := lookupA_isSome_iff m k

theorem lookupA_eq_none_iff {κ α : Type} [DecidableEq κ] (m : List (κ × α)) (k : κ) :
    lookupA m k = none ↔ k ∉ keysA m := by
  rw [← lookupA_isSome_iff]
  cases lookupA m k <;> simp

theorem mem_of_lookupA_eq_some {κ α : Type} [DecidableEq κ] {m : List (κ × α)} {k : κ}
    {v : α} (h : lookupA m k = some v) : (k, v) ∈ m := by
  induction m with
  | nil => simp [lookupA] at h
  | cons p rest ih =>
    obtain ⟨k0, v0⟩ := p
    by_cases hk : k0 = k
    · subst hk
      have hv : v0 = v := by simpa [lookupA] using h
      subst hv
      simp
    · simp only [lookupA, if_neg hk] at h
      exact List.mem_cons_of_mem _ (ih h)

theorem lookupA_eq_some_of_mem {κ α : Type} [DecidableEq κ] {m : List (κ × α)} {k : κ}
    {v : α} (hnd : (keysA m).Nodup) (h : (k, v) ∈ m) : lookupA m k = some v := by
  induction m with
  | nil => simp at h
  | cons p rest ih =>
    simp only [keysA, List.map_cons, List.nodup_cons] at hnd
    rcases List.mem_cons.mp h with h1 | h1
    · subst h1; simp [lookupA]
    · have hk : p.1 ≠ k := by
        intro he
        exact hnd.1 (he ▸ (List.mem_map.mpr ⟨(k, v), h1, rfl⟩))
      simpa [lookupA, hk] using ih hnd.2 h1

theorem keysA_unique_val {κ α : Type} [DecidableEq κ] {m : List (κ × α)} {k : κ} {a b : α}
    (hnd : (keysA m).Nodup) (ha : (k, a) ∈ m) (hb : (k, b) ∈ m) : a = b := by
  have h1 := lookupA_eq_some_of_mem hnd ha
  have h2 := lookupA_eq_some_of_mem hnd hb
  rw [h1] at h2
  exact (Option.some.injEq _ _ ▸ h2)

theorem lookupA_putA_self {κ α : Type} [DecidableEq κ] (m : List (κ × α)) (k : κ) (v : α) :
    lookupA (putA m k v) k = some v := by
  induction m with
  | nil => simp [putA, lookupA]
  | cons p rest ih =>
    by_cases h : p.1 = k
    · simp [putA, h, lookupA]
    · simp [putA, h, lookupA, ih]

theorem lookupA_putA_ne {κ α : Type} [DecidableEq κ] (m : List (κ × α)) (k k' : κ) (v : α)
    (h : k' ≠ k) : lookupA (putA m k v) k' = lookupA m k' := by
  induction m with
  | nil => simp [putA, lookupA, Ne.symm h]
  | cons p rest ih =>
    obtain ⟨k0, v0⟩ := p
    by_cases hp : k0 = k
    · subst hp; simp [putA, lookupA, Ne.symm h]
    · by_cases hp' : k0 = k'
      · simp [putA, hp, lookupA, hp', h]
      · simp [putA, hp, lookupA, hp', ih]

theorem keysA_putA_mem {κ α : Type} [DecidableEq κ] {m : List (κ × α)} {k : κ} (v : α)
    (h : k ∈ keysA m) : keysA (putA m k v) = keysA m := by
  induction m with
  | nil => simp [keysA] at h
  | cons p rest ih =>
    obtain ⟨k0, v0⟩ := p
    by_cases hp : k0 = k
    · simp [putA, hp, keysA]
    · have hrest : k ∈ keysA rest := by
        rcases List.mem_cons.mp h with h1 | h1
        · exact absurd h1.symm hp
        · exact h1
      simpa [putA, hp, keysA] using ih hrest

theorem putA_eq_append {κ α : Type} [DecidableEq κ] {m : List (κ × α)} {k : κ} (v : α)
    (h : k ∉ keysA m) : putA m k v = m ++ [(k, v)] := by
  induction m with
  | nil => rfl
  | cons p rest ih =>
    obtain ⟨k0, v0⟩ := p
    simp only [keysA, List.map_cons, List.mem_cons, not_or] at h
    have hne : k0 ≠ k := fun he => h.1 he.symm
    simp [putA, hne, ih h.2]

theorem keysA_putA_not_mem {κ α : Type} [DecidableEq κ] {m : List (κ × α)} {k : κ} (v : α)
    (h : k ∉ keysA m) : keysA (putA m k v) = keysA m ++ [k] := by
  rw [putA_eq_append v h]
  simp [keysA]

theorem keysA_putA_nodup {κ α : Type} [DecidableEq κ] {m : List (κ × α)} (k : κ) (v : α)
    (h : (keysA m).Nodup) : (keysA (putA m k v)).Nodup := by
  by_cases hk : k ∈ keysA m
  · rw [keysA_putA_mem v hk]; exact h
  · rw [keysA_putA_not_mem v hk]
    simpa [List.nodup_append] using ⟨h, hk⟩

theorem lookupA_removeA_ne {κ α : Type} [DecidableEq κ] (m : List (κ × α)) (k k' : κ)
    (h : k' ≠ k) : lookupA (removeA m k) k' = lookupA m k' := by
  induction m with
  | nil => rfl
  | cons p rest ih =>
    obtain ⟨k0, v0⟩ := p
    by_cases hp : k0 = k
    · subst hp; simp [removeA, lookupA, Ne.symm h]
    · by_cases hp' : k0 = k'
      · simp [removeA, hp, lookupA, hp', h]
      · simp [removeA, hp, lookupA, hp', ih]

theorem lookupA_map_val {κ α β : Type} [DecidableEq κ] (m : List (κ × α)) (f : α → β)
    (k : κ) : lookupA (m.map (fun p => (p.1, f p.2))) k = (lookupA m k).map f := by
  induction m with
  | nil => rfl
  | cons p rest ih =>
    by_cases h : p.1 = k
    · simp [lookupA, h]
    · simp [lookupA, h, ih]

/-! ## Lemmas about the equality tests -/

theorem Column.equalsB_refl_col (c : Column) : Column.equalsB c c = true := by
  simp [Column.equalsB]

theorem ForeignKey.equalsB_refl_fk (fk : ForeignKey) : ForeignKey.equalsB fk fk = true := by
  simp [ForeignKey.equalsB]

/-! ## Lemmas about `mapByKey` -/

theorem mapByKey_go_nodup {κ α : Type} [DecidableEq κ] (f : α → κ) (l : List α)
    (acc : List (κ × α)) (h : (keysA acc).Nodup) :
    (keysA (l.foldl (fun m a => putA m (f a) a) acc)).Nodup := by
  induction l generalizing acc with
  | nil => exact h
  | cons a rest ih => exact ih _ (keysA_putA_nodup (f a) a h)

theorem mapByKey_keys_nodup {κ α : Type} [DecidableEq κ] (f : α → κ) (l : List α) :
    (keysA (mapByKey f l)).Nodup := mapByKey_go_nodup f l [] (by simp [keysA])

theorem mapByKey_go_of_nodup {κ α : Type} [DecidableEq κ] (f : α → κ) (l : List α)
    (acc : List (κ × α)) (hnd : (l.map f).Nodup)
    (hdisj : ∀ a ∈ l, f a ∉ keysA acc) :
    l.foldl (fun m a => putA m (f a) a) acc = acc ++ l.map (fun a => (f a, a)) := by
  induction l generalizing acc with
  | nil => simp
  | cons a rest ih =>
    simp only [List.map_cons, List.nodup_cons] at hnd
    have hfa : f a ∉ keysA acc := hdisj a (List.mem_cons_self a rest)
    rw [List.foldl_cons, putA_eq_append a hfa,
        ih (acc ++ [(f a, a)]) hnd.2 ?_, List.map_cons, List.append_assoc]
    · rfl
    · intro b hb
      simp only [keysA, List.map_append, List.mem_append, not_or]
      refine ⟨fun hc => hdisj b (List.mem_cons_of_mem a hb) hc, ?_⟩
      simp only [List.map_cons, List.map_nil, List.mem_singleton]
      intro he
      exact hnd.1 (he ▸ List.mem_map.mpr ⟨b, hb, rfl⟩)

theorem mapByKey_of_nodup {κ α : Type} [DecidableEq κ] (f : α → κ) (l : List α)
    (hnd : (l.map f).Nodup) : mapByKey f l = l.map (fun a => (f a, a)) := by
  simpa using mapByKey_go_of_nodup f l [] hnd (by simp [keysA])

theorem containsA_map_pair {κ α : Type} [DecidableEq κ] (f : α → κ) (l : List α) (k : κ) :
    containsA (l.map (fun a => (f a, a))) k = memB k (l.map f) := by
  rw [Bool.eq_iff_iff, containsA_iff, memB]
  simp [keysA, List.map_map, Function.comp]

theorem lookupA_map_pair {κ α : Type} [DecidableEq κ] (f : α → κ) (l : List α) (k : κ) :
    lookupA (l.map (fun a => (f a, a))) k = l.find? (fun a => f a == k) := by
  induction l with
  | nil => rfl
  | cons a rest ih =>
    by_cases h : f a = k
    · simp [lookupA, h, List.find?]
    · have hb : (f a == k) = false := by simpa using h
      simp [lookupA, h, List.find?, hb, ih]

/-! ## Diagonal lemmas for the diff engine -/

theorem mem_imp_containsA {κ α : Type} [DecidableEq κ] {m : List (κ × α)} {p : κ × α}
    (h : p ∈ m) : containsA m p.1 = true :=
  (containsA_iff m p.1).mpr (List.mem_map.mpr ⟨p, h, rfl⟩)

theorem filter_not_containsA_self {κ α : Type} [DecidableEq κ] (m : List (κ × α)) :
    m.filter (fun p => !containsA m p.1) = [] := by
  refine List.filter_eq_nil_iff.mpr (fun p hp => ?_)
  simp [mem_imp_containsA hp]

theorem filterMap_changedPair_self {κ α : Type} [DecidableEq κ] (m : List (κ × α))
    (hnd : (keysA m).Nodup) (eqB : α → α → Bool) (heq : ∀ a, eqB a a = true) :
    m.filterMap (changedPair m eqB) = [] := by
  refine List.filterMap_eq_nil_iff.mpr (fun p hp => ?_)
  obtain ⟨k0, v0⟩ := p
  unfold changedPair
  rw [lookupA_eq_some_of_mem hnd hp]
  simp [heq]

/-! ## Round-trip through `to_dict` / `from_dict` -/

theorem Column.from_to_col (c : Column) : Column.from_dict (Column.to_dict c) = c := rfl

theorem ForeignKey.from_to_fk (fk : ForeignKey) :
    ForeignKey.from_dict (ForeignKey.to_dict fk) = fk := rfl

theorem Table.from_to_columns (rid : String) (t : Table) :
    (Table.from_dict rid t.to_dict).columns = t.columns := by
  simp [Table.from_dict, Table.to_dict, List.map_map, Function.comp_def, Column.from_to_col]

theorem Table.from_to_pk (rid : String) (t : Table) :
    (Table.from_dict rid t.to_dict).primary_key = t.primary_key := rfl

theorem fksOrNil_from_to (rid : String) (t : Table) :
    fksOrNil (Table.from_dict rid t.to_dict) = fksOrNil t := by
  unfold fksOrNil Table.from_dict Table.to_dict
  rcases hfk : t.foreign_keys with _ | fl
  · simp [fksTruthy, hfk]
  · cases fl with
    | nil => simp [fksTruthy]
    | cons x xs =>
      simp [fksTruthy, List.map_map, Function.comp_def, ForeignKey.from_to_fk]

/-- When the two tables have the same columns, primary key and foreign-key
list, the diff comes out empty — the heart of reflexivity/idempotence. -/
theorem compare_tables_eq_empty (o n : Table) (hc : o.columns = n.columns)
    (hpk : o.primary_key = n.primary_key) (hfk : fksOrNil o = fksOrNil n) :
    compare_tables o n = ⟨[], [], [], none, [], []⟩ := by
  have hadd := filter_not_containsA_self (mapByKey Column.name n.columns)
  have hmod := filterMap_changedPair_self (mapByKey Column.name n.columns)
    (mapByKey_keys_nodup _ _) Column.equalsB Column.equalsB_refl_col
  have hfadd := filter_not_containsA_self (mapByKey ForeignKey.columns (fksOrNil n))
  have hfmod := filterMap_changedPair_self (mapByKey ForeignKey.columns (fksOrNil n))
    (mapByKey_keys_nodup _ _) ForeignKey.equalsB ForeignKey.equalsB_refl_fk
  simp only [compare_tables]
  rw [hc, hpk, hfk]
  by_cases hft : (fksTruthy o.foreign_keys || fksTruthy n.foreign_keys) = true
  · rw [if_pos rfl, if_pos hft, hadd, hmod, hfadd, hfmod]
    simp
  · rw [if_pos rfl, if_neg hft, hadd, hmod]
    simp

theorem compare_roundtrip_empty (rid : String) (t : Table) :
    compare_tables (Table.from_dict rid t.to_dict) t = ⟨[], [], [], none, [], []⟩ :=
  compare_tables_eq_empty _ _ (Table.from_to_columns rid t) (Table.from_to_pk rid t)
    (fksOrNil_from_to rid t)

/-- The plan against a state holding exactly the serialised desired tables
is empty. -/
theorem plan_self_empty (tables : List (String × Table))
    (h : (keysA tables).Nodup) :
    plan tables (tables.map (fun p => (p.1, p.2.to_dict))) = [] := by
  unfold plan
  rw [List.append_eq_nil]
  constructor
  · refine List.filterMap_eq_nil_iff.mpr (fun p hp => ?_)
    obtain ⟨rid, t⟩ := p
    have hl : lookupA tables rid = some t := lookupA_eq_some_of_mem h hp
    have hlm : lookupA (tables.map (fun p => (p.1, p.2.to_dict))) rid
        = some t.to_dict := by
      rw [lookupA_map_val]
      simp [hl]
    simp only [hlm, compare_roundtrip_empty]
    rfl
  · refine List.filterMap_eq_nil_iff.mpr (fun p hp => ?_)
    obtain ⟨q, hq, he⟩ := List.mem_map.mp hp
    have hcon : containsA tables p.1 = true := by
      rw [containsA_iff]
      rw [← he]
      exact List.mem_map.mpr ⟨q, hq, rfl⟩
    simp [hcon]

/-! ## Order-stability of the diff: component characterisations -/

theorem filterMap_congr' {α β : Type} {l : List α} {f g : α → Option β}
    (h : ∀ a ∈ l, f a = g a) : l.filterMap f = l.filterMap g := by
  induction l with
  | nil => rfl
  | cons a rest ih =>
    simp only [List.filterMap_cons, h a (List.mem_cons_self a rest)]
    cases g a <;> simp [ih (fun b hb => h b (List.mem_cons_of_mem a hb))]

/-- Under unique keys, the "added entries" loop lists the new entries in
their order of appearance in `new`. -/
theorem addPart_eq {κ α : Type} [DecidableEq κ] (f : α → κ) (old new : List α)
    (hold : (old.map f).Nodup) (hnew : (new.map f).Nodup) :
    ((mapByKey f new).filter (fun p => !containsA (mapByKey f old) p.1)).map Prod.snd
      = new.filter (fun a => !memB (f a) (old.map f)) := by
  rw [mapByKey_of_nodup f old hold, mapByKey_of_nodup f new hnew]
  simp only [containsA_map_pair]
  rw [List.filter_map, List.map_map]
  simp [Function.comp_def]

/-- Under unique keys, the "modified entries" loop lists `(old, new)`
pairs in the order the keys appear in `new`, the old partner found by
key. -/
theorem modPart_eq {κ α : Type} [DecidableEq κ] (f : α → κ) (old new : List α)
    (hold : (old.map f).Nodup) (hnew : (new.map f).Nodup) (eqB : α → α → Bool) :
    (mapByKey f new).filterMap (changedPair (mapByKey f old) eqB)
      = new.filterMap (changedAt f eqB old) := by
  rw [mapByKey_of_nodup f old hold, mapByKey_of_nodup f new hnew,
      List.filterMap_map]
  refine filterMap_congr' (fun c _ => ?_)
  show changedPair (old.map (fun a => (f a, a))) eqB (f c, c) = _
  unfold changedPair changedAt
  rw [lookupA_map_pair]

/-- New-side halves of the drop-recreate entries, in `new` order. -/
theorem modPart_snd_eq {κ α : Type} [DecidableEq κ] (f : α → κ) (old new : List α)
    (hold : (old.map f).Nodup) (hnew : (new.map f).Nodup) (eqB : α → α → Bool) :
    ((mapByKey f new).filterMap (changedPair (mapByKey f old) eqB)).map Prod.snd
      = new.filterMap (fun c => (changedAt f eqB old c).map Prod.snd) := by
  rw [modPart_eq f old new hold hnew eqB, List.map_filterMap]

/-- Old-side halves of the drop-recreate entries, still in `new` order. -/
theorem modPart_fst_eq {κ α : Type} [DecidableEq κ] (f : α → κ) (old new : List α)
    (hold : (old.map f).Nodup) (hnew : (new.map f).Nodup) (eqB : α → α → Bool) :
    ((mapByKey f new).filterMap (changedPair (mapByKey f old) eqB)).map Prod.fst
      = new.filterMap (fun c => (changedAt f eqB old c).map Prod.fst) := by
  rw [modPart_eq f old new hold hnew eqB, List.map_filterMap]

theorem fksOrNil_eq_nil_of_not_truthy {t : Table} (h : fksTruthy t.foreign_keys = false) :
    fksOrNil t = [] := by
  unfold fksOrNil
  rcases hf : t.foreign_keys with _ | l
  · rfl
  · cases l with
    | nil => rfl
    | cons a as => rw [hf] at h; simp [fksTruthy] at h

/-- Full characterisation of `_compare_tables` under unique column names
and foreign-key column tuples: columns diffs follow the order of
appearance (`new` for additions/modifications, `old` for removals); the
foreign-key additions are the fresh tuples in `new` order followed by the
drop-recreate re-additions in `new` order, and the removals are the
drop-recreate removals in `new` order followed by the old-only removals
in `old` order. -/
theorem compare_tables_characterization (o n : Table)
    (hon : (o.columns.map Column.name).Nodup) (hnn : (n.columns.map Column.name).Nodup)
    (hof : ((fksOrNil o).map ForeignKey.columns).Nodup)
    (hnf : ((fksOrNil n).map ForeignKey.columns).Nodup) :
    compare_tables o n =
      { add_columns :=
          n.columns.filter (fun c => !memB c.name (o.columns.map Column.name))
        modify_columns := n.columns.filterMap (changedAt Column.name Column.equalsB o.columns)
        remove_columns :=
          o.columns.filter (fun c => !memB c.name (n.columns.map Column.name))
        modify_primary_key :=
          if o.primary_key = n.primary_key then none
          else some (o.primary_key, n.primary_key)
        add_foreign_keys :=
          (fksOrNil n).filter
            (fun fk => !memB fk.columns ((fksOrNil o).map ForeignKey.columns))
          ++ (fksOrNil n).filterMap (fun fk =>
            (changedAt ForeignKey.columns ForeignKey.equalsB (fksOrNil o) fk).map Prod.snd)
        remove_foreign_keys :=
          (fksOrNil n).filterMap (fun fk =>
            (changedAt ForeignKey.columns ForeignKey.equalsB (fksOrNil o) fk).map Prod.fst)
          ++ (fksOrNil o).filter
            (fun fk => !memB fk.columns ((fksOrNil n).map ForeignKey.columns)) } := by
  simp only [compare_tables]
  by_cases hft : (fksTruthy o.foreign_keys || fksTruthy n.foreign_keys) = true
  · rw [if_pos hft,
        addPart_eq Column.name o.columns n.columns hon hnn,
        modPart_eq Column.name o.columns n.columns hon hnn Column.equalsB,
        addPart_eq Column.name n.columns o.columns hnn hon,
        addPart_eq ForeignKey.columns (fksOrNil o) (fksOrNil n) hof hnf,
        modPart_snd_eq ForeignKey.columns (fksOrNil o) (fksOrNil n) hof hnf
          ForeignKey.equalsB,
        modPart_fst_eq ForeignKey.columns (fksOrNil o) (fksOrNil n) hof hnf
          ForeignKey.equalsB,
        addPart_eq ForeignKey.columns (fksOrNil n) (fksOrNil o) hnf hof]
  · rw [if_neg hft]
    simp only [Bool.or_eq_true, not_or, Bool.not_eq_true] at hft
    have ho := fksOrNil_eq_nil_of_not_truthy (t := o) hft.1
    have hn := fksOrNil_eq_nil_of_not_truthy (t := n) hft.2
    rw [addPart_eq Column.name o.columns n.columns hon hnn,
        modPart_eq Column.name o.columns n.columns hon hnn Column.equalsB,
        addPart_eq Column.name n.columns o.columns hnn hon]
    simp [ho, hn]

/-! ## Characterisation of the planner output -/

theorem plan_mem_iff (tables : List (String × Table)) (st : List (String × TableDict))
    (h1 : (keysA tables).Nodup) (h2 : (keysA st).Nodup) (rid : String) (ch : Change) :
    (rid, ch) ∈ plan tables st ↔
      (∃ t, lookupA tables rid = some t ∧ lookupA st rid = none ∧
        ch = Change.create t) ∨
      (∃ t cur, lookupA tables rid = some t ∧ lookupA st rid = some cur ∧
        (compare_tables (Table.from_dict rid cur) t).nonEmpty = true ∧
        ch = Change.update t (compare_tables (Table.from_dict rid cur) t)) ∨
      (∃ cur, lookupA st rid = some cur ∧ lookupA tables rid = none ∧
        ch = Change.delete cur.name) := by
  unfold plan
  rw [List.mem_append]
  constructor
  · rintro (hm | hm)
    · obtain ⟨⟨r, t⟩, hmem, hf⟩ := List.mem_filterMap.mp hm
      have hrt : lookupA tables r = some t := lookupA_eq_some_of_mem h1 hmem
      cases hl : lookupA st r with
      | none =>
        rw [hl] at hf
        simp only [Option.some.injEq, Prod.mk.injEq] at hf
        obtain ⟨hr, hc⟩ := hf
        subst hr
        exact Or.inl ⟨t, hrt, hl, hc.symm⟩
      | some cur =>
        rw [hl] at hf
        simp only at hf
        by_cases hne : (compare_tables (Table.from_dict r cur) t).nonEmpty = true
        · rw [if_pos hne] at hf
          simp only [Option.some.injEq, Prod.mk.injEq] at hf
          obtain ⟨hr, hc⟩ := hf
          subst hr
          exact Or.inr (Or.inl ⟨t, cur, hrt, hl, hne, hc.symm⟩)
        · rw [if_neg hne] at hf
          exact absurd hf (by simp)
    · obtain ⟨⟨r, cur⟩, hmem, hf⟩ := List.mem_filterMap.mp hm
      have hrc : lookupA st r = some cur := lookupA_eq_some_of_mem h2 hmem
      by_cases hco : containsA tables r = true
      · rw [if_pos hco] at hf
        exact absurd hf (by simp)
      · rw [if_neg hco] at hf
        simp only [Option.some.injEq, Prod.mk.injEq] at hf
        obtain ⟨hr, hc⟩ := hf
        subst hr
        refine Or.inr (Or.inr ⟨cur, hrc, ?_, hc.symm⟩)
        rw [lookupA_eq_none_iff]
        exact fun hk => hco ((containsA_iff tables r).mpr hk)
  · rintro (⟨t, hlt, hls, hch⟩ | ⟨t, cur, hlt, hls, hne, hch⟩ | ⟨cur, hls, hlt, hch⟩)
    · refine Or.inl (List.mem_filterMap.mpr ⟨(rid, t), mem_of_lookupA_eq_some hlt, ?_⟩)
      rw [hls]
      simp [hch]
    · refine Or.inl (List.mem_filterMap.mpr ⟨(rid, t), mem_of_lookupA_eq_some hlt, ?_⟩)
      rw [hls]
      simp only
      rw [if_pos hne, hch]
    · refine Or.inr (List.mem_filterMap.mpr ⟨(rid, cur), mem_of_lookupA_eq_some hls, ?_⟩)
      have hco : containsA tables rid = false := by
        rw [containsA]
        rw [hlt]
        rfl
      rw [hco]
      simp [hch]

/-! ## The regrouping of planned changes by table name -/

/-- The grouped update action for a name is the LAST planned update with
that table name: later same-name entries overwrite earlier ones. -/
theorem groupUpdates_lookup (changes : List (String × Change)) (name : String) :
    lookupA (groupUpdates changes) name =
      (changes.filterMap (fun p => match p.2 with
        | Change.update t tc => if t.name = name then some (p.1, t, tc) else none
        | _ => none)).getLast? := by
  induction changes using List.reverseRecOn with
  | nil => rfl
  | append_singleton cs c ih =>
    obtain ⟨rid, ch⟩ := c
    unfold groupUpdates at ih ⊢
    rw [List.foldl_append, List.filterMap_append]
    cases ch with
    | create t =>
      simp only [List.foldl_cons, List.foldl_nil]
      rw [ih]
      simp
    | update t tc =>
      simp only [List.foldl_cons, List.foldl_nil]
      by_cases hn : t.name = name
      · subst hn
        rw [lookupA_putA_self]
        simp
      · rw [lookupA_putA_ne _ _ _ _ (fun he => hn he.symm), ih]
        simp [hn]
    | delete n =>
      simp only [List.foldl_cons, List.foldl_nil]
      rw [ih]
      simp

/-- The grouped create action for a name is the LAST planned create with
that table name. -/
theorem groupCreates_lookup (changes : List (String × Change)) (name : String) :
    lookupA (groupCreates changes) name =
      (changes.filterMap (fun p => match p.2 with
        | Change.create t => if t.name = name then some (p.1, t) else none
        | _ => none)).getLast? := by
  induction changes using List.reverseRecOn with
  | nil => rfl
  | append_singleton cs c ih =>
    obtain ⟨rid, ch⟩ := c
    unfold groupCreates at ih ⊢
    rw [List.foldl_append, List.filterMap_append]
    cases ch with
    | create t =>
      simp only [List.foldl_cons, List.foldl_nil]
      by_cases hn : t.name = name
      · subst hn
        rw [lookupA_putA_self]
        simp
      · rw [lookupA_putA_ne _ _ _ _ (fun he => hn he.symm), ih]
        simp [hn]
    | update t tc =>
      simp only [List.foldl_cons, List.foldl_nil]
      rw [ih]
      simp
    | delete n =>
      simp only [List.foldl_cons, List.foldl_nil]
      rw [ih]
      simp

/-- The grouped delete action for a name is the LAST planned delete with
that table name. -/
theorem groupDeletes_lookup (changes : List (String × Change)) (name : String) :
    lookupA (groupDeletes changes) name =
      (changes.filterMap (fun p => match p.2 with
        | Change.delete m => if m = name then some p.1 else none
        | _ => none)).getLast? := by
  induction changes using List.reverseRecOn with
  | nil => rfl
  | append_singleton cs c ih =>
    obtain ⟨rid, ch⟩ := c
    unfold groupDeletes at ih ⊢
    rw [List.foldl_append, List.filterMap_append]
    cases ch with
    | create t =>
      simp only [List.foldl_cons, List.foldl_nil]
      rw [ih]
      simp
    | update t tc =>
      simp only [List.foldl_cons, List.foldl_nil]
      rw [ih]
      simp
    | delete n =>
      simp only [List.foldl_cons, List.foldl_nil]
      by_cases hn : n = name
      · subst hn
        rw [lookupA_putA_self]
        simp
      · rw [lookupA_putA_ne _ _ _ _ (fun he => hn he.symm), ih]
        simp [hn]

theorem mem_of_getLast?_eq_some {α : Type} {l : List α} {x : α}
    (h : l.getLast? = some x) : x ∈ l := by
  have hx : x ∈ l.getLast? := Option.mem_def.mpr h
  obtain ⟨hne, he⟩ := List.mem_getLast?_eq_getLast hx
  rw [he]
  exact List.getLast_mem hne

/-- Membership form: a grouped update comes from a planned update with
that table name. -/
theorem groupUpdates_lookup_mem {changes : List (String × Change)} {name rid : String}
    {t : Table} {tc : TableChanges}
    (h : lookupA (groupUpdates changes) name = some (rid, t, tc)) :
    (rid, Change.update t tc) ∈ changes ∧ t.name = name := by
  rw [groupUpdates_lookup] at h
  have hmem := mem_of_getLast?_eq_some h
  obtain ⟨⟨r, ch⟩, hm, hf⟩ := List.mem_filterMap.mp hmem
  cases ch with
  | create t' => simp at hf
  | delete n => simp at hf
  | update t' tc' =>
    by_cases hn : t'.name = name
    · simp only [if_pos hn, Option.some.injEq, Prod.mk.injEq] at hf
      obtain ⟨h1, h2, h3⟩ := hf
      subst h1; subst h2; subst h3
      exact ⟨hm, hn⟩
    · simp [hn] at hf

/-- Membership form for grouped creates. -/
theorem groupCreates_lookup_mem {changes : List (String × Change)} {name rid : String}
    {t : Table} (h : lookupA (groupCreates changes) name = some (rid, t)) :
    (rid, Change.create t) ∈ changes ∧ t.name = name := by
  rw [groupCreates_lookup] at h
  have hmem := mem_of_getLast?_eq_some h
  obtain ⟨⟨r, ch⟩, hm, hf⟩ := List.mem_filterMap.mp hmem
  cases ch with
  | update t' tc' => simp at hf
  | delete n => simp at hf
  | create t' =>
    by_cases hn : t'.name = name
    · simp only [if_pos hn, Option.some.injEq, Prod.mk.injEq] at hf
      obtain ⟨h1, h2⟩ := hf
      subst h1; subst h2
      exact ⟨hm, hn⟩
    · simp [hn] at hf

/-- Membership form for grouped deletes. -/
theorem groupDeletes_lookup_mem {changes : List (String × Change)} {name rid : String}
    (h : lookupA (groupDeletes changes) name = some rid) :
    (rid, Change.delete name) ∈ changes := by
  rw [groupDeletes_lookup] at h
  have hmem := mem_of_getLast?_eq_some h
  obtain ⟨⟨r, ch⟩, hm, hf⟩ := List.mem_filterMap.mp hmem
  cases ch with
  | update t' tc' => simp at hf
  | create t' => simp at hf
  | delete n =>
    by_cases hn : n = name
    · simp only [if_pos hn, Option.some.injEq] at hf
      subst hn; subst hf
      exact hm
    · simp [hn] at hf

/-! ## The plan has unique resource ids -/

theorem keysA_filterMap_sublist {κ α β : Type} (l : List (κ × α))
    (f : κ × α → Option (κ × β)) (hf : ∀ p q, f p = some q → q.1 = p.1) :
    (keysA (l.filterMap f)).Sublist (keysA l) := by
  induction l with
  | nil => simp [keysA]
  | cons p rest ih =>
    rw [List.filterMap_cons]
    cases hfp : f p with
    | none => exact (ih).trans (by simp [keysA])
    | some q =>
      have : q.1 = p.1 := hf p q hfp
      simp only [keysA, List.map_cons, this]
      exact List.Sublist.cons₂ p.1 ih

theorem plan_keys_nodup (tables : List (String × Table)) (st : List (String × TableDict))
    (h1 : (keysA tables).Nodup) (h2 : (keysA st).Nodup) :
    (keysA (plan tables st)).Nodup := by
  unfold plan
  have hsub1 : (keysA (tables.filterMap (fun p =>
      match lookupA st p.1 with
      | none => some (p.1, Change.create p.2)
      | some cur =>
        let tc := compare_tables (Table.from_dict p.1 cur) p.2
        if tc.nonEmpty then some (p.1, Change.update p.2 tc) else none))).Sublist
      (keysA tables) := by
    refine keysA_filterMap_sublist _ _ (fun p q hq => ?_)
    cases hl : lookupA st p.1 with
    | none => rw [hl] at hq; simp only [Option.some.injEq] at hq; rw [← hq]
    | some cur =>
      rw [hl] at hq
      simp only at hq
      by_cases hne : (compare_tables (Table.from_dict p.1 cur) p.2).nonEmpty = true
      · rw [if_pos hne] at hq
        simp only [Option.some.injEq] at hq
        rw [← hq]
      · rw [if_neg hne] at hq
        exact absurd hq (by simp)
  have hsub2 : (keysA (st.filterMap (fun p =>
      if containsA tables p.1 then none
      else some (p.1, Change.delete p.2.name)))).Sublist (keysA st) := by
    refine keysA_filterMap_sublist _ _ (fun p q hq => ?_)
    by_cases hc : containsA tables p.1 = true
    · rw [if_pos hc] at hq
      exact absurd hq (by simp)
    · rw [if_neg hc] at hq
      simp only [Option.some.injEq] at hq
      rw [← hq]
  rw [keysA, List.map_append, List.nodup_append]
  refine ⟨hsub1.nodup h1, hsub2.nodup h2, fun k hk1 hk2 => ?_⟩
  have hk1' : k ∈ keysA tables := hsub1.mem hk1
  obtain ⟨⟨r, cur⟩, hm, hf⟩ := List.mem_map.mp hk2
  obtain ⟨⟨r', cur'⟩, hm', hf'⟩ := List.mem_filterMap.mp hm
  by_cases hc : containsA tables r' = true
  · rw [if_pos hc] at hf'
    exact absurd hf' (by simp)
  · rw [if_neg hc] at hf'
    simp only [Option.some.injEq, Prod.mk.injEq] at hf'
    apply hc
    rw [containsA_iff]
    have hr : r = k := hf
    rw [hf'.1, hr]
    exact hk1'

/-- With unique plan keys, a resource id determines its change. -/
theorem plan_change_unique {tables : List (String × Table)}
    {st : List (String × TableDict)} (h1 : (keysA tables).Nodup)
    (h2 : (keysA st).Nodup) {rid : String} {ch ch' : Change}
    (ha : (rid, ch) ∈ plan tables st) (hb : (rid, ch') ∈ plan tables st) :
    ch = ch' :=
  keysA_unique_val (plan_keys_nodup tables st h1 h2) ha hb

/-! ## Per-phase behaviour of `apply` -/

/-- The update phase attempts exactly one `alter` per grouped table name
in topological order, regardless of which operations fail. -/
theorem updatePhase_ops (ua : List (String × (String × Table × TableChanges)))
    (ok : Op → Bool) (order : List String)
    (acc : List (String × TableDict) × List Op) :
    (updatePhase ua ok order acc).2 = acc.2 ++ order.filterMap (fun n =>
      if containsA ua n then some (Op.alterT n) else none) := by
  induction order generalizing acc with
  | nil => simp [updatePhase]
  | cons n rest ih =>
    simp only [updatePhase, List.foldl_cons] at ih ⊢
    cases hl : lookupA ua n with
    | none =>
      rw [ih]
      have hc : containsA ua n = false := by simp [containsA, hl]
      simp [hc]
    | some v =>
      obtain ⟨rid, t, tc⟩ := v
      dsimp only
      have hc : containsA ua n = true := by simp [containsA, hl]
      by_cases hok : ok (Op.alterT n) = true
      · rw [if_pos hok, ih]
        simp [hc]
      · rw [if_neg hok, ih]
        simp [hc]

/-- The create phase attempts exactly one `create` per grouped table name
in topological order, regardless of which operations fail. -/
theorem createPhase_ops (ca : List (String × (String × Table))) (ok : Op → Bool)
    (order : List String) (acc : List (String × TableDict) × List Op) :
    (createPhase ca ok order acc).2 = acc.2 ++ order.filterMap (fun n =>
      if containsA ca n then some (Op.createT n) else none) := by
  induction order generalizing acc with
  | nil => simp [createPhase]
  | cons n rest ih =>
    simp only [createPhase, List.foldl_cons] at ih ⊢
    cases hl : lookupA ca n with
    | none =>
      rw [ih]
      have hc : containsA ca n = false := by simp [containsA, hl]
      simp [hc]
    | some v =>
      obtain ⟨rid, t⟩ := v
      dsimp only
      have hc : containsA ca n = true := by simp [containsA, hl]
      by_cases hok : ok (Op.createT n) = true
      · rw [if_pos hok, ih]
        simp [hc]
      · rw [if_neg hok, ih]
        simp [hc]

/-- A state lookup is preserved by the update phase unless a successful
update targets that resource id. -/
theorem updatePhase_state (ua : List (String × (String × Table × TableChanges)))
    (ok : Op → Bool) (order : List String)
    (acc : List (String × TableDict) × List Op) (r : String)
    (h : ∀ n rid t tc, lookupA ua n = some (rid, t, tc) →
      ok (Op.alterT n) = true → rid ≠ r) :
    lookupA (updatePhase ua ok order acc).1 r = lookupA acc.1 r := by
  induction order generalizing acc with
  | nil => simp [updatePhase]
  | cons n rest ih =>
    simp only [updatePhase, List.foldl_cons] at ih ⊢
    cases hl : lookupA ua n with
    | none => exact ih acc
    | some v =>
      obtain ⟨rid, t, tc⟩ := v
      dsimp only
      by_cases hok : ok (Op.alterT n) = true
      · rw [if_pos hok, ih]
        exact lookupA_putA_ne _ _ _ _ (Ne.symm (h n rid t tc hl hok))
      · rw [if_neg hok]
        exact ih (acc.1, acc.2 ++ [Op.alterT n])

/-- A state lookup is preserved by the create phase unless a successful
create targets that resource id. -/
theorem createPhase_state (ca : List (String × (String × Table))) (ok : Op → Bool)
    (order : List String) (acc : List (String × TableDict) × List Op) (r : String)
    (h : ∀ n rid t, lookupA ca n = some (rid, t) →
      ok (Op.createT n) = true → rid ≠ r) :
    lookupA (createPhase ca ok order acc).1 r = lookupA acc.1 r := by
  induction order generalizing acc with
  | nil => simp [createPhase]
  | cons n rest ih =>
    simp only [createPhase, List.foldl_cons] at ih ⊢
    cases hl : lookupA ca n with
    | none => exact ih acc
    | some v =>
      obtain ⟨rid, t⟩ := v
      dsimp only
      by_cases hok : ok (Op.createT n) = true
      · rw [if_pos hok, ih]
        exact lookupA_putA_ne _ _ _ _ (Ne.symm (h n rid t hl hok))
      · rw [if_neg hok]
        exact ih (acc.1, acc.2 ++ [Op.createT n])

/-- A state lookup is preserved by the delete phase unless a successful
drop targets that resource id. -/
theorem deletePhase_state (da : List (String × String)) (ok : Op → Bool)
    (order : List String) (acc : List (String × TableDict) × List Op) (r : String)
    (h : ∀ n rid, lookupA da n = some rid → ok (Op.dropT n) = true → rid ≠ r) :
    lookupA (deletePhase da ok order acc).1 r = lookupA acc.1 r := by
  induction order generalizing acc with
  | nil => simp [deletePhase]
  | cons n rest ih =>
    simp only [deletePhase, List.foldl_cons] at ih ⊢
    cases hl : lookupA da n with
    | none => exact ih acc
    | some rid =>
      dsimp only
      cases hcur : lookupA acc.1 rid with
      | none => exact ih acc
      | some cur =>
        dsimp only
        by_cases hok : ok (Op.dropT n) = true
        · rw [if_pos hok, ih]
          exact lookupA_removeA_ne _ _ _ (Ne.symm (h n rid hl hok))
        · rw [if_neg hok]
          exact ih (acc.1, acc.2 ++ [Op.dropT n])

/-- The delete phase attempts exactly one `drop` per grouped table name:
when every grouped resource id is still recorded, names are not repeated
in the order, and distinct names map to distinct resource ids, no lookup
fails and the attempted operations do not depend on the oracle. -/
theorem deletePhase_ops (da : List (String × String)) (ok : Op → Bool)
    (order : List String) (acc : List (String × TableDict) × List Op)
    (hnd : order.Nodup)
    (hinj : ∀ n n' rid, lookupA da n = some rid → lookupA da n' = some rid → n = n')
    (hpresent : ∀ n ∈ order, ∀ rid, lookupA da n = some rid →
      containsA acc.1 rid = true) :
    (deletePhase da ok order acc).2 = acc.2 ++ order.filterMap (fun n =>
      if containsA da n then some (Op.dropT n) else none) := by
  induction order generalizing acc with
  | nil => simp [deletePhase]
  | cons n rest ih =>
    simp only [deletePhase, List.foldl_cons] at ih ⊢
    have hnd' := (List.nodup_cons.mp hnd)
    cases hl : lookupA da n with
    | none =>
      rw [ih acc hnd'.2 (fun m hm rid hr => hpresent m (List.mem_cons_of_mem n hm) rid hr)]
      have hc : containsA da n = false := by simp [containsA, hl]
      simp [hc]
    | some rid =>
      have hc : containsA da n = true := by simp [containsA, hl]
      have hcon := hpresent n (List.mem_cons_self n rest) rid hl
      obtain ⟨cur, hcur⟩ : ∃ cur, lookupA acc.1 rid = some cur := by
        cases hx : lookupA acc.1 rid with
        | none => rw [containsA, hx] at hcon; exact absurd hcon (by simp)
        | some cur => exact ⟨cur, rfl⟩
      dsimp only
      rw [hcur]
      dsimp only
      have hpres' : ∀ m ∈ rest, ∀ rid', lookupA da m = some rid' →
          containsA (removeA acc.1 rid) rid' = true := by
        intro m hm rid' hr
        have hne : rid' ≠ rid := by
          intro he
          exact hnd'.1 (by rw [hinj m n rid' hr (he ▸ hl)] at hm; exact hm)
        rw [containsA, lookupA_removeA_ne _ _ _ hne]
        exact hpresent m (List.mem_cons_of_mem n hm) rid' hr
      by_cases hok : ok (Op.dropT n) = true
      · rw [if_pos hok, ih _ hnd'.2 hpres']
        simp [hc]
      · rw [if_neg hok,
           ih (acc.1, acc.2 ++ [Op.dropT n]) hnd'.2
             (fun m hm rid' hr => hpresent m (List.mem_cons_of_mem n hm) rid' hr)]
        simp [hc]

/-! ## Structure of the DFS traversal -/

theorem visitD_basic (g : List (String × List String)) :
    ∀ (fuel : Nat) (temp : List String) (node : String) (res : List String),
    res.Nodup →
    (∃ new, visitD g fuel temp node res = res ++ new) ∧
    (visitD g fuel temp node res).Nodup ∧
    (∀ x ∈ temp, x ∉ res → x ∉ visitD g fuel temp node res) := by
  intro fuel
  induction fuel with
  | zero =>
    intro temp node res hnd
    refine ⟨⟨[], by simp [visitD]⟩, by simpa [visitD] using hnd, ?_⟩
    intro x _ hx
    simpa [visitD] using hx
  | succ f ih =>
    intro temp node res hnd
    by_cases h1 : node ∈ res
    · have hv : visitD g (f+1) temp node res = res := by
        simp only [visitD]
        rw [if_pos h1]
      rw [hv]
      exact ⟨⟨[], by simp⟩, hnd, fun x _ hx => hx⟩
    · by_cases h2 : node ∈ temp
      · have hv : visitD g (f+1) temp node res = res := by
          simp only [visitD]
          rw [if_neg h1, if_pos h2]
        rw [hv]
        exact ⟨⟨[], by simp⟩, hnd, fun x _ hx => hx⟩
      · have hv : visitD g (f+1) temp node res
            = ((nbrs g node).foldl (fun r m => visitD g f (node :: temp) m r) res) ++ [node] := by
          simp only [visitD]
          rw [if_neg h1, if_neg h2]
        rw [hv]
        have fold_inv : ∀ (ns : List String) (r0 : List String), r0.Nodup →
            (∃ new, ns.foldl (fun r m => visitD g f (node :: temp) m r) r0 = r0 ++ new) ∧
            (ns.foldl (fun r m => visitD g f (node :: temp) m r) r0).Nodup ∧
            (∀ x ∈ node :: temp, x ∉ r0 →
              x ∉ ns.foldl (fun r m => visitD g f (node :: temp) m r) r0) := by
          intro ns
          induction ns with
          | nil =>
            intro r0 h0
            exact ⟨⟨[], by simp⟩, h0, fun x _ hx => hx⟩
          | cons m ms ihm =>
            intro r0 h0
            obtain ⟨hext1, hnd1, hnoadd1⟩ := ih (node :: temp) m r0 h0
            obtain ⟨hext2, hnd2, hnoadd2⟩ := ihm (visitD g f (node :: temp) m r0) hnd1
            rw [List.foldl_cons]
            obtain ⟨n1, he1⟩ := hext1
            obtain ⟨n2, he2⟩ := hext2
            refine ⟨⟨n1 ++ n2, by rw [he2, he1, List.append_assoc]⟩, hnd2, ?_⟩
            intro x hx hxr
            exact hnoadd2 x hx (hnoadd1 x hx hxr)
        obtain ⟨hext, hndf, hnoaddf⟩ := fold_inv (nbrs g node) res hnd
        have hnode_not : node ∉ (nbrs g node).foldl (fun r m => visitD g f (node :: temp) m r) res :=
          hnoaddf node (List.mem_cons_self _ _) h1
        refine ⟨?_, ?_, ?_⟩
        · obtain ⟨new, he⟩ := hext
          exact ⟨new ++ [node], by rw [he, List.append_assoc]⟩
        · rw [List.nodup_append]
          refine ⟨hndf, List.nodup_singleton node, fun x hx1 hx2 => ?_⟩
          rw [List.mem_singleton] at hx2
          exact hnode_not (hx2 ▸ hx1)
        · intro x hx hxr
          have hx' : x ∉ (nbrs g node).foldl (fun r m => visitD g f (node :: temp) m r) res :=
            hnoaddf x (List.mem_cons_of_mem node hx) hxr
          have hxn : x ≠ node := fun he => h2 (he ▸ hx)
          simp [List.mem_append, hx', hxn]

/-- With a dependency-closed graph, the DFS only ever emits graph nodes. -/
theorem visitD_keys (g : List (String × List String))
    (hclosed : ∀ a b, b ∈ nbrs g a → b ∈ keysA g) :
    ∀ (fuel : Nat) (temp : List String) (node : String) (res : List String),
    node ∈ keysA g → (∀ x ∈ res, x ∈ keysA g) →
    ∀ x ∈ visitD g fuel temp node res, x ∈ keysA g := by
  intro fuel
  induction fuel with
  | zero =>
    intro temp node res _ hres x hx
    exact hres x (by simpa [visitD] using hx)
  | succ f ih =>
    intro temp node res hnode hres
    by_cases h1 : node ∈ res
    · have hv : visitD g (f+1) temp node res = res := by
        simp only [visitD]
        rw [if_pos h1]
      rw [hv]
      exact hres
    · by_cases h2 : node ∈ temp
      · have hv : visitD g (f+1) temp node res = res := by
          simp only [visitD]
          rw [if_neg h1, if_pos h2]
        rw [hv]
        exact hres
      · have hv : visitD g (f+1) temp node res
            = ((nbrs g node).foldl (fun r m => visitD g f (node :: temp) m r) res) ++ [node] := by
          simp only [visitD]
          rw [if_neg h1, if_neg h2]
        rw [hv]
        have fold_keys : ∀ (ns : List String), (∀ m ∈ ns, m ∈ keysA g) →
            ∀ (r0 : List String), (∀ x ∈ r0, x ∈ keysA g) →
            ∀ x ∈ ns.foldl (fun r m => visitD g f (node :: temp) m r) r0, x ∈ keysA g := by
          intro ns
          induction ns with
          | nil =>
            intro _ r0 h0 x hx
            exact h0 x (by simpa using hx)
          | cons m ms ihm =>
            intro hms r0 h0
            rw [List.foldl_cons]
            exact ihm (fun b hb => hms b (List.mem_cons_of_mem m hb))
              (visitD g f (node :: temp) m r0)
              (ih (node :: temp) m r0 (hms m (List.mem_cons_self m ms)) h0)
        intro x hx
        rcases List.mem_append.mp hx with hx' | hx'
        · exact fold_keys (nbrs g node) (fun b hb => hclosed node b hb) res hres x hx'
        · rw [List.mem_singleton] at hx'
          exact hx' ▸ hnode

/-- The emitted order never repeats a node. -/
theorem topoSort_nodup (g : List (String × List String)) : (topoSort g).Nodup := by
  unfold topoSort
  have main : ∀ (ks : List String) (res : List String), res.Nodup →
      (ks.foldl (fun res n => if n ∈ res then res
        else visitD g (g.length + 1) [] n res) res).Nodup := by
    intro ks
    induction ks with
    | nil => intro res h; exact h
    | cons k ks ihk =>
      intro res h
      rw [List.foldl_cons]
      by_cases hk : k ∈ res
      · rw [if_pos hk]
        exact ihk res h
      · rw [if_neg hk]
        exact ihk _ ((visitD_basic g (g.length + 1) [] k res h).2.1)
  exact main (keysA g) [] (by simp)

/-! ## Reachability and acyclicity -/

theorem reachB_succ (g : List (String × List String)) (fuel : Nat) (a b : String) :
    reachB g (fuel + 1) a b = (nbrs g a).any (fun c => c == b || reachB g fuel c b) := rfl

theorem reachB_edge (g : List (String × List String)) {a b : String}
    (h : b ∈ nbrs g a) (fuel : Nat) : reachB g (fuel + 1) a b = true := by
  rw [reachB_succ]
  simp only [List.any_eq_true, Bool.or_eq_true, beq_iff_eq]
  exact ⟨b, h, Or.inl rfl⟩

theorem reachB_snoc (g : List (String × List String)) :
    ∀ (fuel : Nat) (a b c : String), reachB g fuel a b = true → c ∈ nbrs g b →
    reachB g (fuel + 1) a c = true := by
  intro fuel
  induction fuel with
  | zero => intro a b c h _; simp [reachB] at h
  | succ f ih =>
    intro a b c h hc
    rw [reachB_succ] at h
    simp only [List.any_eq_true, Bool.or_eq_true, beq_iff_eq] at h
    obtain ⟨d, hd, hdor⟩ := h
    rcases hdor with hdb | hreach
    · subst hdb
      rw [reachB_succ]
      simp only [List.any_eq_true, Bool.or_eq_true, beq_iff_eq]
      exact ⟨d, hd, Or.inr (reachB_edge g hc f)⟩
    · rw [reachB_succ]
      simp only [List.any_eq_true, Bool.or_eq_true, beq_iff_eq]
      exact ⟨d, hd, Or.inr (ih d b c hreach hc)⟩

theorem chainTo_reach (g : List (String × List String)) :
    ∀ (temp : List String) (n b : String), ChainTo g temp n → b ∈ temp →
    ∀ (fuel : Nat), temp.length ≤ fuel → reachB g fuel b n = true := by
  intro temp
  induction temp with
  | nil => intro n b _ hb; simp at hb
  | cons p rest ihp =>
    intro n b hchain hb fuel hlen
    obtain ⟨hedge, hrest⟩ := hchain
    cases fuel with
    | zero => simp at hlen
    | succ f =>
      rcases List.mem_cons.mp hb with hbp | hbr
      · subst hbp
        exact reachB_edge g hedge f
      · have hf : rest.length ≤ f := by
          simpa using Nat.le_of_succ_le_succ hlen
        exact reachB_snoc g f b p n (ihp p b hrest hbr f hf) hedge

/-- In an acyclic graph no neighbour of `node` is on the DFS stack above
it (that would close a cycle through `node`), nor is `node` its own
neighbour. -/
theorem neighbor_not_on_stack (g : List (String × List String))
    (hacy : acyclicB g = true)
    {temp : List String} {node m : String}
    (hnode : node ∈ keysA g) (htempnd : temp.Nodup)
    (htempsub : ∀ x ∈ temp, x ∈ keysA g) (hchain : ChainTo g temp node)
    (hm : m ∈ nbrs g node) : m ∉ node :: temp := by
  have hlen : temp.length ≤ g.length := by
    have hsp := List.subperm_of_subset htempnd (fun x hx => htempsub x hx)
    have := hsp.length_le
    simpa [keysA] using this
  have hacy' : reachB g (g.length + 1) node node = false := by
    have := (List.all_eq_true.mp hacy) node hnode
    simpa using this
  intro hmem
  rcases List.mem_cons.mp hmem with hmn | hmt
  · subst hmn
    rw [reachB_edge g hm g.length] at hacy'
    exact Bool.true_eq_false.mp hacy'
  · have hr : reachB g g.length m node = true :=
      chainTo_reach g temp node m hchain hmt g.length hlen
    have : reachB g (g.length + 1) node node = true := by
      rw [reachB_succ]
      simp only [List.any_eq_true, Bool.or_eq_true, beq_iff_eq]
      exact ⟨m, hm, Or.inr hr⟩
    rw [this] at hacy'
    exact Bool.true_eq_false.mp hacy'

/-! ## The DFS emits dependencies first -/

theorem visitD_good (g : List (String × List String))
    (hclosed : ∀ a b, b ∈ nbrs g a → b ∈ keysA g)
    (hacy : acyclicB g = true) :
    ∀ (fuel : Nat) (temp : List String) (node : String) (res : List String),
    node ∈ keysA g → temp.Nodup → (∀ x ∈ temp, x ∈ keysA g) →
    ChainTo g temp node → node ∉ temp →
    g.length + 1 ≤ fuel + temp.length →
    res.Nodup → Good g res →
    Good g (visitD g fuel temp node res) ∧ node ∈ visitD g fuel temp node res := by
  intro fuel
  induction fuel with
  | zero =>
    intro temp node res _ htempnd htempsub _ _ hfuel _ _
    exfalso
    have hsp := List.subperm_of_subset htempnd (fun x hx => htempsub x hx)
    have hlen : temp.length ≤ g.length := by simpa [keysA] using hsp.length_le
    omega
  | succ f ih =>
    intro temp node res hnode htempnd htempsub hchain hnt hfuel hresnd hgood
    by_cases h1 : node ∈ res
    · have hv : visitD g (f+1) temp node res = res := by
        simp only [visitD]
        rw [if_pos h1]
      rw [hv]
      exact ⟨hgood, h1⟩
    · by_cases h2 : node ∈ temp
      · exact absurd h2 hnt
      · have hv : visitD g (f+1) temp node res
            = ((nbrs g node).foldl (fun r m => visitD g f (node :: temp) m r) res) ++ [node] := by
          simp only [visitD]
          rw [if_neg h1, if_neg h2]
        rw [hv]
        have fold_good : ∀ (ns : List String), (∀ m ∈ ns, m ∈ nbrs g node) →
            ∀ (r0 : List String), r0.Nodup → Good g r0 →
            (∃ new, ns.foldl (fun r m => visitD g f (node :: temp) m r) r0 = r0 ++ new) ∧
            (ns.foldl (fun r m => visitD g f (node :: temp) m r) r0).Nodup ∧
            Good g (ns.foldl (fun r m => visitD g f (node :: temp) m r) r0) ∧
            (∀ m ∈ ns, m ∈ ns.foldl (fun r m => visitD g f (node :: temp) m r) r0) := by
          intro ns
          induction ns with
          | nil =>
            intro _ r0 h0nd h0g
            exact ⟨⟨[], by simp⟩, h0nd, h0g, by simp⟩
          | cons m ms ihm =>
            intro hms r0 h0nd h0g
            have hmnb : m ∈ nbrs g node := hms m (List.mem_cons_self m ms)
            have hmns : m ∉ node :: temp :=
              neighbor_not_on_stack g hacy hnode htempnd htempsub hchain hmnb
            have hgm := ih (node :: temp) m r0 (hclosed node m hmnb)
              (List.nodup_cons.mpr ⟨hnt, htempnd⟩)
              (fun x hx => by
                rcases List.mem_cons.mp hx with hx' | hx'
                · exact hx' ▸ hnode
                · exact htempsub x hx')
              ⟨hmnb, hchain⟩ hmns
              (by simp only [List.length_cons]; omega)
              h0nd h0g
            obtain ⟨hext1, hnd1, _⟩ := visitD_basic g f (node :: temp) m r0 h0nd
            obtain ⟨hext2, hnd2, hgood2, hmem2⟩ :=
              ihm (fun b hb => hms b (List.mem_cons_of_mem m hb))
                (visitD g f (node :: temp) m r0) hnd1 (hgm).1
            rw [List.foldl_cons]
            obtain ⟨n1, he1⟩ := hext1
            obtain ⟨n2, he2⟩ := hext2
            refine ⟨⟨n1 ++ n2, by rw [he2, he1, List.append_assoc]⟩, hnd2, hgood2, ?_⟩
            intro b hb
            rcases List.mem_cons.mp hb with hb' | hb'
            · subst hb'
              rw [he2]
              exact List.mem_append.mpr (Or.inl (hgm).2)
            · exact hmem2 b hb'
        have hnb : ∀ m ∈ nbrs g node, m ∈ nbrs g node := fun m hm => hm
        obtain ⟨hext, hndf, hgoodf, hmemf⟩ := fold_good (nbrs g node) hnb res hresnd hgood
        have hnode_not : node ∉ (nbrs g node).foldl (fun r m => visitD g f (node :: temp) m r) res := by
          have foldbasic : ∀ (ns : List String) (r0 : List String), r0.Nodup →
              (∀ x ∈ node :: temp, x ∉ r0 →
                x ∉ ns.foldl (fun r m => visitD g f (node :: temp) m r) r0) := by
            intro ns
            induction ns with
            | nil => intro r0 _ x _ hx; simpa using hx
            | cons m ms ihm =>
              intro r0 h0 x hx hxr
              rw [List.foldl_cons]
              obtain ⟨_, hnd1, hnoadd1⟩ := visitD_basic g f (node :: temp) m r0 h0
              exact ihm (visitD g f (node :: temp) m r0) hnd1 x hx (hnoadd1 x hx hxr)
          exact foldbasic (nbrs g node) res hresnd node (List.mem_cons_self _ _) h1
        constructor
        · intro a ha b hb
          rcases List.mem_append.mp ha with ha' | ha'
          · obtain ⟨hbmem, hblt⟩ := hgoodf a ha' b hb
            refine ⟨List.mem_append.mpr (Or.inl hbmem), ?_⟩
            rw [List.indexOf_append_of_mem hbmem, List.indexOf_append_of_mem ha']
            exact hblt
          · rw [List.mem_singleton] at ha'
            subst ha'
            have hbmem := hmemf b hb
            refine ⟨List.mem_append.mpr (Or.inl hbmem), ?_⟩
            rw [List.indexOf_append_of_mem hbmem,
                List.indexOf_append_of_not_mem hnode_not]
            have := List.indexOf_lt_length.mpr hbmem
            simp only [List.indexOf_cons_self]
            omega
        · exact List.mem_append.mpr (Or.inr (List.mem_singleton.mpr rfl))

/-- The full specification of `_topological_sort` on acyclic
dependency-closed graphs: the output is a permutation of the node set in
which every node's dependencies appear strictly earlier. -/
theorem topoSort_spec (g : List (String × List String))
    (hclosed : ∀ a b, b ∈ nbrs g a → b ∈ keysA g)
    (hknd : (keysA g).Nodup) (hacy : acyclicB g = true) :
    Good g (topoSort g) ∧ (topoSort g).Perm (keysA g) := by
  have main : ∀ (ks : List String), (∀ k ∈ ks, k ∈ keysA g) →
      ∀ (res : List String), res.Nodup → (∀ x ∈ res, x ∈ keysA g) → Good g res →
      (∃ new, ks.foldl (fun res n => if n ∈ res then res
          else visitD g (g.length + 1) [] n res) res = res ++ new) ∧
      (ks.foldl (fun res n => if n ∈ res then res
          else visitD g (g.length + 1) [] n res) res).Nodup ∧
      (∀ x ∈ ks.foldl (fun res n => if n ∈ res then res
          else visitD g (g.length + 1) [] n res) res, x ∈ keysA g) ∧
      Good g (ks.foldl (fun res n => if n ∈ res then res
          else visitD g (g.length + 1) [] n res) res) ∧
      (∀ k ∈ ks, k ∈ ks.foldl (fun res n => if n ∈ res then res
          else visitD g (g.length + 1) [] n res) res) := by
    intro ks
    induction ks with
    | nil =>
      intro _ res hnd hsub hg
      exact ⟨⟨[], by simp⟩, hnd, hsub, hg, by simp⟩
    | cons k ks ihk =>
      intro hks res hnd hsub hg
      have hkk : k ∈ keysA g := hks k (List.mem_cons_self k ks)
      rw [List.foldl_cons]
      by_cases hk : k ∈ res
      · rw [if_pos hk]
        obtain ⟨hext, hnd', hsub', hg', hmem'⟩ :=
          ihk (fun b hb => hks b (List.mem_cons_of_mem k hb)) res hnd hsub hg
        refine ⟨hext, hnd', hsub', hg', ?_⟩
        intro b hb
        rcases List.mem_cons.mp hb with hb' | hb'
        · subst hb'
          obtain ⟨new, he⟩ := hext
          rw [he]
          exact List.mem_append.mpr (Or.inl hk)
        · exact hmem' b hb'
      · rw [if_neg hk]
        obtain ⟨hext1, hnd1, _⟩ := visitD_basic g (g.length + 1) [] k res hnd
        have hsub1 := visitD_keys g hclosed (g.length + 1) [] k res hkk hsub
        obtain ⟨hg1, hkin⟩ := visitD_good g hclosed hacy (g.length + 1) [] k res
          hkk List.nodup_nil (by simp) trivial (by simp) (by simp) hnd hg
        obtain ⟨hext2, hnd2, hsub2, hg2, hmem2⟩ :=
          ihk (fun b hb => hks b (List.mem_cons_of_mem k hb))
            (visitD g (g.length + 1) [] k res) hnd1 hsub1 hg1
        obtain ⟨n1, he1⟩ := hext1
        obtain ⟨n2, he2⟩ := hext2
        refine ⟨⟨n1 ++ n2, by rw [he2, he1, List.append_assoc]⟩, hnd2, hsub2, hg2, ?_⟩
        intro b hb
        rcases List.mem_cons.mp hb with hb' | hb'
        · subst hb'
          rw [he2]
          exact List.mem_append.mpr (Or.inl hkin)
        · exact hmem2 b hb'
  obtain ⟨_, hnd, hsub, hg, hmem⟩ :=
    main (keysA g) (fun k hk => hk) [] List.nodup_nil (by simp) (by intro a ha; simp at ha)
  refine ⟨hg, ?_⟩
  have h1 : List.Subperm (topoSort g) (keysA g) :=
    List.subperm_of_subset hnd (fun x hx => hsub x hx)
  have h2 : List.Subperm (keysA g) (topoSort g) :=
    List.subperm_of_subset hknd (fun x hx => hmem x hx)
  exact List.Subperm.antisymm h1 h2

/-! ## Structure of the dependency graph -/

theorem keysA_appendEdge (g : List (String × List String)) (k v : String) :
    keysA (appendEdge g k v) = keysA g := by
  induction g with
  | nil => rfl
  | cons p rest ih =>
    obtain ⟨k0, vs⟩ := p
    by_cases h : k0 = k
    · simp [appendEdge, h, keysA]
    · simp [appendEdge, h, keysA]
      exact ih

theorem lookupA_appendEdge (g : List (String × List String)) (k v k' : String) :
    lookupA (appendEdge g k v) k' =
      if k' = k then (lookupA g k).map (fun vs => vs ++ [v]) else lookupA g k' := by
  induction g with
  | nil => simp [appendEdge, lookupA]
  | cons p rest ih =>
    obtain ⟨k0, vs⟩ := p
    by_cases h0 : k0 = k
    · subst h0
      by_cases h1 : k' = k0
      · subst h1
        simp [appendEdge, lookupA]
      · have h1' : ¬ k0 = k' := fun he => h1 he.symm
        simp [appendEdge, lookupA, h1, h1']
    · by_cases h1 : k0 = k'
      · subst h1
        simp [appendEdge, lookupA, h0]
      · simp [appendEdge, lookupA, h0, h1, ih]

theorem nbrs_appendEdge_mono {g : List (String × List String)} {k v a b : String}
    (h : b ∈ nbrs g a) : b ∈ nbrs (appendEdge g k v) a := by
  unfold nbrs at h ⊢
  rw [lookupA_appendEdge]
  by_cases ha : a = k
  · subst ha
    cases hl : lookupA g a with
    | none => rw [hl] at h; simp at h
    | some vs =>
      rw [hl] at h
      simp only [if_pos rfl, hl, Option.map_some, Option.getD_some]
      exact List.mem_append.mpr (Or.inl (by simpa using h))
  · rw [if_neg ha]
    exact h

theorem nbrs_appendEdge_self {g : List (String × List String)} {k v : String}
    (hk : k ∈ keysA g) : v ∈ nbrs (appendEdge g k v) k := by
  unfold nbrs
  rw [lookupA_appendEdge, if_pos rfl]
  cases hl : lookupA g k with
  | none => exact absurd ((lookupA_eq_none_iff g k).mp hl) (by simpa using hk)
  | some vs => simp

theorem graphInit_values (tables : List (String × Table)) :
    ∀ p ∈ graphInit tables, p.2 = ([] : List String) := by
  unfold graphInit
  have main : ∀ (ts : List (String × Table)) (acc : List (String × List String)),
      (∀ p ∈ acc, p.2 = ([] : List String)) →
      ∀ p ∈ ts.foldl (fun g p => putA g p.2.name []) acc, p.2 = ([] : List String) := by
    intro ts
    induction ts with
    | nil => intro acc h; exact h
    | cons q qs ihq =>
      intro acc h
      rw [List.foldl_cons]
      refine ihq (putA acc q.2.name []) ?_
      intro p hp
      -- membership in putA: either in acc or the new pair
      clear ihq
      induction acc with
      | nil =>
        simp only [putA, List.mem_singleton] at hp
        rw [hp]
      | cons r rs ihr =>
        obtain ⟨k0, vs⟩ := r
        by_cases he : k0 = q.2.name
        · simp only [putA, if_pos he] at hp
          rcases List.mem_cons.mp hp with hp' | hp'
          · rw [hp']
          · exact h p (List.mem_cons_of_mem _ hp')
        · simp only [putA, if_neg he] at hp
          rcases List.mem_cons.mp hp with hp' | hp'
          · exact h p (hp' ▸ List.mem_cons_self _ _)
          · exact ihr (fun u hu => h u (List.mem_cons_of_mem _ hu)) hp'
  intro p hp
  exact main tables [] (by simp) p hp

theorem graphInit_keys_nodup (tables : List (String × Table)) :
    (keysA (graphInit tables)).Nodup := by
  unfold graphInit
  have main : ∀ (ts : List (String × Table)) (acc : List (String × List String)),
      (keysA acc).Nodup →
      (keysA (ts.foldl (fun g p => putA g p.2.name []) acc)).Nodup := by
    intro ts
    induction ts with
    | nil => intro acc h; exact h
    | cons q qs ihq =>
      intro acc h
      rw [List.foldl_cons]
      exact ihq _ (keysA_putA_nodup _ _ h)
  exact main tables [] (by simp [keysA])

theorem keysA_putA_iff {κ α : Type} [DecidableEq κ] (m : List (κ × α)) (k k' : κ) (v : α) :
    k' ∈ keysA (putA m k v) ↔ k' ∈ keysA m ∨ k' = k := by
  by_cases hk : k ∈ keysA m
  · rw [keysA_putA_mem v hk]
    constructor
    · exact Or.inl
    · rintro (h | h)
      · exact h
      · exact h ▸ hk
  · rw [keysA_putA_not_mem v hk]
    simp

theorem mem_keysA_graphInit (tables : List (String × Table)) (k : String) :
    k ∈ keysA (graphInit tables) ↔ ∃ p ∈ tables, p.2.name = k := by
  unfold graphInit
  have main : ∀ (ts : List (String × Table)) (acc : List (String × List String)),
      (k ∈ keysA (ts.foldl (fun g p => putA g p.2.name []) acc) ↔
        k ∈ keysA acc ∨ ∃ p ∈ ts, p.2.name = k) := by
    intro ts
    induction ts with
    | nil => intro acc; simp
    | cons q qs ihq =>
      intro acc
      rw [List.foldl_cons, ihq, keysA_putA_iff]
      constructor
      · rintro ((h | h) | h)
        · exact Or.inl h
        · exact Or.inr ⟨q, List.mem_cons_self q qs, h.symm⟩
        · obtain ⟨p, hp, he⟩ := h
          exact Or.inr ⟨p, List.mem_cons_of_mem q hp, he⟩
      · rintro (h | h)
        · exact Or.inl (Or.inl h)
        · obtain ⟨p, hp, he⟩ := h
          rcases List.mem_cons.mp hp with hp' | hp'
          · exact Or.inl (Or.inr (by rw [hp'] at he; exact he.symm))
          · exact Or.inr ⟨p, hp', he⟩
  rw [main tables []]
  simp [keysA]

theorem graphEdges_keys (tables : List (String × Table)) (g0 : List (String × List String)) :
    keysA (graphEdges tables g0) = keysA g0 := by
  unfold graphEdges
  have inner : ∀ (fks : List ForeignKey) (nm : String) (g : List (String × List String)),
      keysA (fks.foldl (fun g fk =>
        if containsA g fk.reference_table then appendEdge g nm fk.reference_table
        else g) g) = keysA g := by
    intro fks
    induction fks with
    | nil => intro nm g; rfl
    | cons fk fks ihf =>
      intro nm g
      rw [List.foldl_cons]
      by_cases hc : containsA g fk.reference_table = true
      · rw [if_pos hc, ihf, keysA_appendEdge]
      · rw [if_neg hc, ihf]
  have main : ∀ (ts : List (String × Table)) (g : List (String × List String)),
      keysA (ts.foldl (fun g p => (fksOrNil p.2).foldl (fun g fk =>
        if containsA g fk.reference_table then appendEdge g p.2.name fk.reference_table
        else g) g) g) = keysA g := by
    intro ts
    induction ts with
    | nil => intro g; rfl
    | cons q qs ihq =>
      intro g
      rw [List.foldl_cons, ihq, inner]
  exact main tables g0

theorem buildGraph_keys_nodup (tables : List (String × Table)) :
    (keysA (buildGraph tables)).Nodup := by
  unfold buildGraph
  rw [graphEdges_keys]
  exact graphInit_keys_nodup tables

theorem mem_keysA_buildGraph (tables : List (String × Table)) (k : String) :
    k ∈ keysA (buildGraph tables) ↔ ∃ p ∈ tables, p.2.name = k := by
  unfold buildGraph
  rw [graphEdges_keys tables (graphInit tables)]
  exact mem_keysA_graphInit tables k

theorem buildGraph_closed (tables : List (String × Table)) :
    ∀ a b, b ∈ nbrs (buildGraph tables) a → b ∈ keysA (buildGraph tables) := by
  unfold buildGraph
  have hinit : ∀ a b, b ∈ nbrs (graphInit tables) a → b ∈ keysA (graphInit tables) := by
    intro a b hb
    unfold nbrs at hb
    cases hl : lookupA (graphInit tables) a with
    | none => rw [hl] at hb; simp at hb
    | some vs =>
      rw [hl] at hb
      have hv : vs = [] := graphInit_values tables (a, vs) (mem_of_lookupA_eq_some hl)
      rw [hv] at hb
      simp at hb
  have inner : ∀ (fks : List ForeignKey) (nm : String) (g : List (String × List String)),
      (∀ a b, b ∈ nbrs g a → b ∈ keysA g) →
      ∀ a b, b ∈ nbrs (fks.foldl (fun g fk =>
        if containsA g fk.reference_table then appendEdge g nm fk.reference_table
        else g) g) a →
      b ∈ keysA (fks.foldl (fun g fk =>
        if containsA g fk.reference_table then appendEdge g nm fk.reference_table
        else g) g) := by
    intro fks
    induction fks with
    | nil => intro nm g h; exact h
    | cons fk fks ihf =>
      intro nm g h
      rw [List.foldl_cons]
      by_cases hc : containsA g fk.reference_table = true
      · rw [if_pos hc]
        refine ihf nm (appendEdge g nm fk.reference_table) ?_
        intro a b hb
        rw [keysA_appendEdge]
        unfold nbrs at hb
        rw [lookupA_appendEdge] at hb
        by_cases ha : a = nm
        · rw [if_pos ha] at hb
          cases hl : lookupA g nm with
          | none => rw [hl] at hb; simp at hb
          | some vs =>
            rw [hl] at hb
            simp only [Option.map_some', Option.getD_some] at hb
            rcases List.mem_append.mp hb with hb' | hb'
            · exact h nm b (by unfold nbrs; rw [hl]; simpa using hb')
            · rw [List.mem_singleton] at hb'
              rw [hb']
              exact (containsA_iff g fk.reference_table).mp hc
        · rw [if_neg ha] at hb
          exact h a b hb
      · rw [if_neg hc]
        exact ihf nm g h
  have main : ∀ (ts : List (String × Table)) (g : List (String × List String)),
      (∀ a b, b ∈ nbrs g a → b ∈ keysA g) →
      ∀ a b, b ∈ nbrs (ts.foldl (fun g p => (fksOrNil p.2).foldl (fun g fk =>
        if containsA g fk.reference_table then appendEdge g p.2.name fk.reference_table
        else g) g) g) a →
      b ∈ keysA (ts.foldl (fun g p => (fksOrNil p.2).foldl (fun g fk =>
        if containsA g fk.reference_table then appendEdge g p.2.name fk.reference_table
        else g) g) g) := by
    intro ts
    induction ts with
    | nil => intro g h; exact h
    | cons q qs ihq =>
      intro g h
      rw [List.foldl_cons]
      exact ihq _ (inner (fksOrNil q.2) q.2.name g h)
  exact main tables (graphInit tables) hinit

theorem innerFold_keys (nm : String) (fks : List ForeignKey) :
    ∀ (g : List (String × List String)),
    keysA (fks.foldl (fun g fk =>
      if containsA g fk.reference_table then appendEdge g nm fk.reference_table else g) g)
      = keysA g := by
  induction fks with
  | nil => intro g; rfl
  | cons fk fks ihf =>
    intro g
    rw [List.foldl_cons]
    by_cases hc : containsA g fk.reference_table = true
    · rw [if_pos hc, ihf, keysA_appendEdge]
    · rw [if_neg hc, ihf]

theorem innerFold_mono (nm : String) (fks : List ForeignKey) {a b : String} :
    ∀ (g : List (String × List String)), b ∈ nbrs g a →
    b ∈ nbrs (fks.foldl (fun g fk =>
      if containsA g fk.reference_table then appendEdge g nm fk.reference_table else g) g) a := by
  induction fks with
  | nil => intro g h; exact h
  | cons fk fks ihf =>
    intro g h
    rw [List.foldl_cons]
    by_cases hc : containsA g fk.reference_table = true
    · rw [if_pos hc]
      exact ihf _ (nbrs_appendEdge_mono h)
    · rw [if_neg hc]
      exact ihf _ h

theorem innerFold_edge (nm : String) (fks : List ForeignKey) {fk : ForeignKey} :
    ∀ (g : List (String × List String)), fk ∈ fks → nm ∈ keysA g →
    fk.reference_table ∈ keysA g →
    fk.reference_table ∈ nbrs (fks.foldl (fun g fk' =>
      if containsA g fk'.reference_table then appendEdge g nm fk'.reference_table else g) g) nm := by
  induction fks with
  | nil => intro g h; simp at h
  | cons f fs ihf =>
    intro g hmem hnm href
    rw [List.foldl_cons]
    rcases List.mem_cons.mp hmem with he | he
    · subst he
      have hc : containsA g fk.reference_table = true := (containsA_iff _ _).mpr href
      rw [if_pos hc]
      exact innerFold_mono nm fs _ (nbrs_appendEdge_self hnm)
    · by_cases hc : containsA g f.reference_table = true
      · rw [if_pos hc]
        refine ihf _ he ?_ ?_
        · rw [keysA_appendEdge]; exact hnm
        · rw [keysA_appendEdge]; exact href
      · rw [if_neg hc]
        exact ihf _ he hnm href

theorem outerFold_mono (ts : List (String × Table)) {a b : String} :
    ∀ (g : List (String × List String)), b ∈ nbrs g a →
    b ∈ nbrs (ts.foldl (fun g p => (fksOrNil p.2).foldl (fun g fk =>
      if containsA g fk.reference_table then appendEdge g p.2.name fk.reference_table
      else g) g) g) a := by
  induction ts with
  | nil => intro g h; exact h
  | cons q qs ihq =>
    intro g h
    rw [List.foldl_cons]
    exact ihq _ (innerFold_mono q.2.name (fksOrNil q.2) g h)

/-- Every foreign key of a desired table whose referenced table is a node
of the graph contributes that edge to `_build_dependency_graph`. -/
theorem buildGraph_edge (tables : List (String × Table)) {rid : String} {t : Table}
    {fk : ForeignKey} (hm : (rid, t) ∈ tables) (hfk : fk ∈ fksOrNil t)
    (href : fk.reference_table ∈ keysA (buildGraph tables)) :
    fk.reference_table ∈ nbrs (buildGraph tables) t.name := by
  have hrefi : fk.reference_table ∈ keysA (graphInit tables) := by
    unfold buildGraph at href
    rwa [graphEdges_keys] at href
  have hname : t.name ∈ keysA (graphInit tables) :=
    (mem_keysA_graphInit tables t.name).mpr ⟨(rid, t), hm, rfl⟩
  unfold buildGraph graphEdges
  have main : ∀ (ts : List (String × Table)) (g : List (String × List String)),
      (rid, t) ∈ ts → t.name ∈ keysA g → fk.reference_table ∈ keysA g →
      fk.reference_table ∈ nbrs (ts.foldl (fun g p => (fksOrNil p.2).foldl (fun g fk' =>
        if containsA g fk'.reference_table then appendEdge g p.2.name fk'.reference_table
        else g) g) g) t.name := by
    intro ts
    induction ts with
    | nil => intro g h; simp at h
    | cons q qs ihq =>
      intro g hmem hnm href'
      rw [List.foldl_cons]
      rcases List.mem_cons.mp hmem with he | he
      · subst he
        apply outerFold_mono qs
        exact innerFold_edge t.name (fksOrNil t) g hfk hnm href'
      · refine ihq _ he ?_ ?_
        · rw [innerFold_keys]; exact hnm
        · rw [innerFold_keys]; exact href'
  exact main tables (graphInit tables) hm hname hrefi

/-! ## The variable resolver -/

theorem isPrefixOf_dollarBrace (s : List Char) :
    (['$', '{'].isPrefixOf s) = true ↔ ∃ t, s = '$' :: '{' :: t := by
  cases s with
  | nil => simp [List.isPrefixOf]
  | cons a s' =>
    cases s' with
    | nil => simp [List.isPrefixOf]
    | cons b s'' =>
      simp only [List.isPrefixOf, Bool.and_eq_true, beq_iff_eq, List.cons.injEq]
      constructor
      · rintro ⟨ha, hb, _⟩
        exact ⟨s'', ha.symm, hb.symm, rfl⟩
      · rintro ⟨t, ht, hb, hs⟩
        refine ⟨ht.symm, hb.symm, ?_⟩
        simp [List.isPrefixOf]

theorem isSuffixOf_brace (s : List Char) :
    (['}'].isSuffixOf s) = true ↔ ∃ t, s = t ++ ['}'] := by
  unfold List.isSuffixOf
  constructor
  · intro h
    obtain ⟨u, hu⟩ : ∃ u, s.reverse = '}' :: u := by
      cases hs : s.reverse with
      | nil => rw [hs] at h; simp [List.isPrefixOf] at h
      | cons a u =>
        rw [hs] at h
        simp only [List.reverse_cons, List.reverse_nil, List.nil_append,
          List.isPrefixOf, Bool.and_eq_true, beq_iff_eq] at h
        exact ⟨u, by rw [h.1]⟩
    refine ⟨u.reverse, ?_⟩
    have hrr := congrArg List.reverse hu
    simpa using hrr
  · rintro ⟨t, ht⟩
    subst ht
    simp [List.isPrefixOf]

theorem resolveField_var (env : List Char → Option (List Char)) (ident : List Char) :
    resolveField env ('$' :: '{' :: (ident ++ ['}']))
      = (env ident).getD ('$' :: '{' :: (ident ++ ['}'])) := by
  unfold resolveField
  have h1 : (['$', '{'].isPrefixOf ('$' :: '{' :: (ident ++ ['}']))) = true :=
    (isPrefixOf_dollarBrace _).mpr ⟨ident ++ ['}'], rfl⟩
  have h2 : (['}'].isSuffixOf ('$' :: '{' :: (ident ++ ['}']))) = true :=
    (isSuffixOf_brace _).mpr ⟨'$' :: '{' :: ident, by simp⟩
  rw [if_pos (by rw [h1, h2]; rfl)]
  have h3 : (('$' :: '{' :: (ident ++ ['}'])).drop 2).dropLast = ident := by
    simp
  rw [h3]
  cases env ident <;> rfl

theorem resolveField_other (env : List Char → Option (List Char)) (s : List Char)
    (h : ¬ ∃ ident, s = '$' :: '{' :: (ident ++ ['}'])) : resolveField env s = s := by
  unfold resolveField
  rw [if_neg]
  intro hcond
  rw [Bool.and_eq_true] at hcond
  obtain ⟨t, ht⟩ := (isPrefixOf_dollarBrace s).mp hcond.1
  obtain ⟨u, hu⟩ := (isSuffixOf_brace s).mp hcond.2
  subst ht
  apply h
  match u, hu with
  | [], hu => simp at hu
  | [c], hu =>
    simp only [List.cons_append, List.nil_append, List.cons.injEq] at hu
    exact absurd hu.2.1 (by decide)
  | c1 :: c2 :: u', hu =>
    simp only [List.cons_append, List.cons.injEq] at hu
    exact ⟨u', by rw [hu.2.2]⟩

/-! ## The config loader -/

theorem mem_putA {κ α : Type} [DecidableEq κ] {m : List (κ × α)} {k : κ} {v : α}
    {p : κ × α} (h : p ∈ putA m k v) : p ∈ m ∨ p = (k, v) := by
  induction m with
  | nil => simp only [putA, List.mem_singleton] at h; exact Or.inr h
  | cons q rest ih =>
    obtain ⟨k0, v0⟩ := q
    by_cases hk : k0 = k
    · simp only [putA, if_pos hk] at h
      rcases List.mem_cons.mp h with h' | h'
      · exact Or.inr h'
      · exact Or.inl (List.mem_cons_of_mem _ h')
    · simp only [putA, if_neg hk] at h
      rcases List.mem_cons.mp h with h' | h'
      · exact Or.inl (h' ▸ List.mem_cons_self _ _)
      · rcases ih h' with h'' | h''
        · exact Or.inl (List.mem_cons_of_mem _ h'')
        · exact Or.inr h''

/-- Everything the loader returns was already loaded or comes from a
type-matching descriptor whose `Table.from_dict` succeeded. -/
theorem loadConfig_mem (rs : List (String × RawResource)) :
    ∀ (acc : List (String × Table)) (rid : String) (t : Table),
    (rid, t) ∈ loadConfig rs acc →
    (rid, t) ∈ acc ∨ ∃ r, (rid, r) ∈ rs ∧ r.type = some "supabase_table" ∧
      Table.fromRaw rid r = some t := by
  induction rs with
  | nil => intro acc rid t h; exact Or.inl h
  | cons p ps ihp =>
    intro acc rid t h
    unfold loadConfig at h
    rw [List.foldl_cons] at h
    have hrec := ihp _ rid t h
    rcases hrec with hacc | ⟨r, hr, htype, hfr⟩
    · by_cases htype : p.2.type = some "supabase_table"
      · rw [if_pos htype] at hacc
        cases hfr : Table.fromRaw p.1 p.2 with
        | none =>
          rw [hfr] at hacc
          exact Or.inl hacc
        | some t' =>
          rw [hfr] at hacc
          rcases mem_putA hacc with h' | h'
          · exact Or.inl h'
          · have h1 : rid = p.1 := congrArg Prod.fst h'
            have h2 : t = t' := congrArg Prod.snd h'
            refine Or.inr ⟨p.2, ?_, htype, ?_⟩
            · rw [h1]
              exact List.mem_cons_self p ps
            · rw [h1, hfr, h2]
      · rw [if_neg htype] at hacc
        exact Or.inl hacc
    · exact Or.inr ⟨r, List.mem_cons_of_mem p hr, htype, hfr⟩

/-- A descriptor with a missing required key is rejected. -/
theorem loadConfig_rejects (rid : String) (r : RawResource)
    (acc : List (String × Table)) (h : Table.fromRaw rid r = none) :
    loadConfig [(rid, r)] acc = acc := by
  unfold loadConfig
  simp only [List.foldl_cons, List.foldl_nil]
  by_cases htype : r.type = some "supabase_table"
  · rw [if_pos htype, h]
  · rw [if_neg htype]

/-! ## When `save_state` runs -/

theorem applyRun_saved_of_nonempty (tables : List (String × Table))
    (st : List (String × TableDict)) (ok : Op → Bool) (h : plan tables st ≠ []) :
    (applyRun tables st ok).saved = true := by
  simp only [applyRun]
  rw [if_neg (by simpa using h)]

theorem applyRun_empty (tables : List (String × Table))
    (st : List (String × TableDict)) (ok : Op → Bool) (h : plan tables st = []) :
    applyRun tables st ok = ⟨st, [], false⟩ := by
  simp only [applyRun]
  rw [if_pos (by simpa using h)]

theorem destroyOne_saved_iff (st : List (String × TableDict)) (rid : String)
    (ok : Op → Bool) :
    (destroyOne st rid ok).saved = true ↔
      ∃ cur, lookupA st rid = some cur ∧ ok (Op.dropT cur.name) = true := by
  unfold destroyOne
  cases hl : lookupA st rid with
  | none => simp
  | some cur =>
    by_cases hok : ok (Op.dropT cur.name) = true
    · simp [hok]
    · simp [hok]

theorem destroyAll_saved_of_nonempty (tables : List (String × Table))
    (st : List (String × TableDict)) (ok : Op → Bool)
    (h : nameToResource tables st ≠ []) :
    (destroyAll tables st ok).saved = true := by
  simp only [destroyAll]
  rw [if_neg (by simpa using h)]

theorem destroyAll_not_saved (tables : List (String × Table))
    (st : List (String × TableDict)) (ok : Op → Bool)
    (h : nameToResource tables st = []) :
    (destroyAll tables st ok).saved = false := by
  simp only [destroyAll]
  rw [if_pos (by simpa using h)]

/-! ## Facts about grouped plan entries -/

theorem groupDeletes_plan_facts {tables : List (String × Table)}
    {st : List (String × TableDict)} (h1 : (keysA tables).Nodup)
    (h2 : (keysA st).Nodup) {n rid : String}
    (h : lookupA (groupDeletes (plan tables st)) n = some rid) :
    (rid, Change.delete n) ∈ plan tables st ∧ lookupA tables rid = none ∧
      ∃ cur, lookupA st rid = some cur := by
  have hm := groupDeletes_lookup_mem h
  have hiff := (plan_mem_iff tables st h1 h2 rid (Change.delete n)).mp hm
  rcases hiff with ⟨t, _, _, hch⟩ | ⟨t, cur, _, _, _, hch⟩ | ⟨cur, hls, hlt, _⟩
  · exact absurd hch (by simp)
  · exact absurd hch (by simp)
  · exact ⟨hm, hlt, cur, hls⟩

theorem groupUpdates_plan_facts {tables : List (String × Table)}
    {st : List (String × TableDict)} (h1 : (keysA tables).Nodup)
    (h2 : (keysA st).Nodup) {n rid : String} {t : Table} {tc : TableChanges}
    (h : lookupA (groupUpdates (plan tables st)) n = some (rid, t, tc)) :
    (rid, Change.update t tc) ∈ plan tables st ∧ t.name = n ∧
      lookupA tables rid ≠ none := by
  obtain ⟨hm, hn⟩ := groupUpdates_lookup_mem h
  have hiff := (plan_mem_iff tables st h1 h2 rid (Change.update t tc)).mp hm
  rcases hiff with ⟨t', _, _, hch⟩ | ⟨t', cur, hlt, _, _, hch⟩ | ⟨cur, _, _, hch⟩
  · exact absurd hch (by simp)
  · have ht : t' = t := by
      have := hch
      simp only [Change.update.injEq] at this
      exact this.1.symm
    exact ⟨hm, hn, by rw [ht] at hlt; rw [hlt]; simp⟩
  · exact absurd hch (by simp)

theorem groupCreates_plan_facts {tables : List (String × Table)}
    {st : List (String × TableDict)} (h1 : (keysA tables).Nodup)
    (h2 : (keysA st).Nodup) {n rid : String} {t : Table}
    (h : lookupA (groupCreates (plan tables st)) n = some (rid, t)) :
    (rid, Change.create t) ∈ plan tables st ∧ t.name = n ∧
      lookupA tables rid ≠ none := by
  obtain ⟨hm, hn⟩ := groupCreates_lookup_mem h
  have hiff := (plan_mem_iff tables st h1 h2 rid (Change.create t)).mp hm
  rcases hiff with ⟨t', hlt, _, hch⟩ | ⟨t', cur, _, _, _, hch⟩ | ⟨cur, _, _, hch⟩
  · have ht : t' = t := by
      have := hch
      simp only [Change.create.injEq] at this
      exact this.symm
    exact ⟨hm, hn, by rw [ht] at hlt; rw [hlt]; simp⟩
  · exact absurd hch (by simp)
  · exact absurd hch (by simp)

/-! ## Apply attempts the same operations whatever fails -/

theorem applyRun_ops_formula (tables : List (String × Table))
    (st : List (String × TableDict)) (ok : Op → Bool)
    (h1 : (keysA tables).Nodup) (h2 : (keysA st).Nodup)
    (hne : ¬ (plan tables st).isEmpty = true) :
    (applyRun tables st ok).ops =
      ((topoSort (buildGraph tables)).filterMap (fun n =>
        if containsA (groupUpdates (plan tables st)) n then some (Op.alterT n) else none))
      ++ ((topoSort (buildGraph tables)).filterMap (fun n =>
        if containsA (groupCreates (plan tables st)) n then some (Op.createT n) else none))
      ++ ((topoSort (buildGraph tables)).filterMap (fun n =>
        if containsA (groupDeletes (plan tables st)) n then some (Op.dropT n) else none)) := by
  simp only [applyRun]
  rw [if_neg hne]
  have hpresent : ∀ n ∈ topoSort (buildGraph tables), ∀ rid,
      lookupA (groupDeletes (plan tables st)) n = some rid →
      containsA (createPhase (groupCreates (plan tables st)) ok (topoSort (buildGraph tables))
        (updatePhase (groupUpdates (plan tables st)) ok (topoSort (buildGraph tables))
          (st, []))).1 rid = true := by
    intro n _ rid hl
    obtain ⟨_, hlt, cur, hls⟩ := groupDeletes_plan_facts h1 h2 hl
    have ecre := createPhase_state (groupCreates (plan tables st)) ok
      (topoSort (buildGraph tables))
      (updatePhase (groupUpdates (plan tables st)) ok (topoSort (buildGraph tables)) (st, []))
      rid (fun n' rid' t' hl' _ heq => by
        obtain ⟨_, _, hlt'⟩ := groupCreates_plan_facts h1 h2 hl'
        rw [heq] at hlt'
        exact hlt' hlt)
    have eupd := updatePhase_state (groupUpdates (plan tables st)) ok
      (topoSort (buildGraph tables)) (st, []) rid
      (fun n' rid' t' tc' hl' _ heq => by
        obtain ⟨_, _, hlt'⟩ := groupUpdates_plan_facts h1 h2 hl'
        rw [heq] at hlt'
        exact hlt' hlt)
    rw [containsA, ecre, eupd]
    show (lookupA st rid).isSome = true
    rw [hls]
    rfl
  have hinj : ∀ n n' rid, lookupA (groupDeletes (plan tables st)) n = some rid →
      lookupA (groupDeletes (plan tables st)) n' = some rid → n = n' := by
    intro n n' rid ha hb
    have hma := (groupDeletes_plan_facts h1 h2 ha).1
    have hmb := (groupDeletes_plan_facts h1 h2 hb).1
    have := plan_change_unique h1 h2 hma hmb
    simpa using this
  rw [deletePhase_ops _ _ _ _ (topoSort_nodup _) hinj hpresent,
      createPhase_ops, updatePhase_ops]
  simp

theorem applyRun_ops_indep (tables : List (String × Table))
    (st : List (String × TableDict)) (ok ok' : Op → Bool)
    (h1 : (keysA tables).Nodup) (h2 : (keysA st).Nodup) :
    (applyRun tables st ok).ops = (applyRun tables st ok').ops := by
  by_cases hemp : (plan tables st).isEmpty = true
  · simp only [applyRun]
    rw [if_pos hemp, if_pos hemp]
  · rw [applyRun_ops_formula tables st ok h1 h2 hemp,
        applyRun_ops_formula tables st ok' h1 h2 hemp]

/-! ## Failed operations leave the resource's state entry unchanged -/

theorem applyRun_state_preserved (tables : List (String × Table))
    (st : List (String × TableDict)) (ok : Op → Bool)
    (h1 : (keysA tables).Nodup) (h2 : (keysA st).Nodup) {rid : String} {ch : Change}
    (hm : (rid, ch) ∈ plan tables st) (hfail : ok (opOf ch) = false) :
    lookupA (applyRun tables st ok).state rid = lookupA st rid := by
  by_cases hemp : (plan tables st).isEmpty = true
  · simp only [applyRun]
    rw [if_pos hemp]
  · simp only [applyRun]
    rw [if_neg hemp]
    have hdel : ∀ n rid', lookupA (groupDeletes (plan tables st)) n = some rid' →
        ok (Op.dropT n) = true → rid' ≠ rid := by
      intro n rid' hl hok heq
      subst heq
      have hmn := (groupDeletes_plan_facts h1 h2 hl).1
      have hc := plan_change_unique h1 h2 hm hmn
      rw [hc] at hfail
      simp only [opOf] at hfail
      rw [hfail] at hok
      exact Bool.false_ne_true hok
    have hcre : ∀ n rid' t, lookupA (groupCreates (plan tables st)) n = some (rid', t) →
        ok (Op.createT n) = true → rid' ≠ rid := by
      intro n rid' t hl hok heq
      subst heq
      obtain ⟨hmn, hn, _⟩ := groupCreates_plan_facts h1 h2 hl
      have hc := plan_change_unique h1 h2 hm hmn
      rw [hc] at hfail
      simp only [opOf] at hfail
      rw [hn] at hfail
      rw [hfail] at hok
      exact Bool.false_ne_true hok
    have hupd : ∀ n rid' t tc, lookupA (groupUpdates (plan tables st)) n = some (rid', t, tc) →
        ok (Op.alterT n) = true → rid' ≠ rid := by
      intro n rid' t tc hl hok heq
      subst heq
      obtain ⟨hmn, hn, _⟩ := groupUpdates_plan_facts h1 h2 hl
      have hc := plan_change_unique h1 h2 hm hmn
      rw [hc] at hfail
      simp only [opOf] at hfail
      rw [hn] at hfail
      rw [hfail] at hok
      exact Bool.false_ne_true hok
    have e1 := deletePhase_state (groupDeletes (plan tables st)) ok
      (topoSort (buildGraph tables))
      (createPhase (groupCreates (plan tables st)) ok (topoSort (buildGraph tables))
        (updatePhase (groupUpdates (plan tables st)) ok (topoSort (buildGraph tables))
          (st, []))) rid hdel
    have e2 := createPhase_state (groupCreates (plan tables st)) ok
      (topoSort (buildGraph tables))
      (updatePhase (groupUpdates (plan tables st)) ok (topoSort (buildGraph tables))
        (st, [])) rid hcre
    have e3 := updatePhase_state (groupUpdates (plan tables st)) ok
      (topoSort (buildGraph tables)) (st, []) rid hupd
    exact e1.trans (e2.trans e3)

/-! # The claims -/

/-- Claim C1 (code bug): the spec mandates that deletes run in REVERSE
topological order (dependents before dependencies), but `aquaform.py`
iterates the forward order in both apply's delete phase and destroy-all.
With `A` holding a foreign key to `B` (edge recorded in the graph, first
conjunct), destroy-all drops `B` before its dependent `A`, and apply's
delete phase does the same after the creates. -/
theorem C1_forward_delete_order :
    nbrs (buildGraph [("ra", tabA), ("rb", tabB)]) "A" = ["B"]
    ∧ (destroyAll [("ra", tabA), ("rb", tabB)] stateAB (fun _ => true)).ops
        = [Op.dropT "B", Op.dropT "A"]
    ∧ (applyRun desiredXY stateOld (fun _ => true)).ops
        = [Op.createT "B", Op.createT "A", Op.dropT "B", Op.dropT "A"] := by
  refine ⟨?_, ?_, ?_⟩ <;> rfl

/-- Claim C2: apply is idempotent.  The diff between a table parsed back
from its own serialisation and the original is empty — including when
`foreign_keys` is the empty list (serialised as an absent key and parsed
back as `None`) or a column default is `None` — and planning again
against the state a fully successful apply wrote yields an empty plan. -/
theorem C2_apply_idempotent :
    (∀ (rid : String) (t : Table),
      (compare_tables (Table.from_dict rid t.to_dict) t).nonEmpty = false)
    ∧ (∀ tables : List (String × Table), (keysA tables).Nodup →
        plan tables (tables.map (fun p => (p.1, p.2.to_dict))) = []) := by
  constructor
  · intro rid t
    rw [compare_roundtrip_empty]
    rfl
  · exact plan_self_empty

theorem C2_witness :
    (keysA [("ra", tabA), ("rb", tabB)]).Nodup
    ∧ (compare_tables (Table.from_dict "ra" tabA.to_dict) tabA).nonEmpty = false
    ∧ plan [("ra", tabA), ("rb", tabB)]
        ([("ra", tabA), ("rb", tabB)].map (fun p => (p.1, p.2.to_dict))) = [] :=
  ⟨by decide, C2_apply_idempotent.1 "ra" tabA,
   C2_apply_idempotent.2 [("ra", tabA), ("rb", tabB)] (by decide)⟩

/-- Claim C3 counterexample: the loader ACCEPTS `badRes`, a descriptor
with every required key whose `primary_key` names a column that does not
exist; the loaded table violates the §3 invariants, refuting the claim
that such descriptors are rejected. -/
theorem C3_counterexample :
    loadConfig [("r1", badRes)] [] = [("r1", badTable)]
    ∧ ¬ sec3Invariants badTable := by
  constructor
  · rfl
  · decide

/-- Claim C3 amended: the loader validates only the presence of required
keys: every table it returns was already loaded or comes from a
type-matching descriptor on which `Table.from_dict` succeeded, and a
descriptor with a missing required key is skipped — but no §3 invariant
is checked, so invariant-violating descriptors are accepted. -/
theorem C3_loader_amended :
    (∀ (rs : List (String × RawResource)) (acc : List (String × Table))
      (rid : String) (t : Table), (rid, t) ∈ loadConfig rs acc →
      (rid, t) ∈ acc ∨ ∃ r, (rid, r) ∈ rs ∧ r.type = some "supabase_table" ∧
        Table.fromRaw rid r = some t)
    ∧ (∀ (rid : String) (r : RawResource) (acc : List (String × Table)),
        Table.fromRaw rid r = none → loadConfig [(rid, r)] acc = acc) :=
  ⟨fun rs => loadConfig_mem rs, loadConfig_rejects⟩

theorem C3_witness :
    (("rg", goodTable) ∈ ([] : List (String × Table)) ∨
      ∃ r, ("rg", r) ∈ [("rg", goodRes)] ∧ r.type = some "supabase_table" ∧
        Table.fromRaw "rg" r = some goodTable)
    ∧ loadConfig [("rx", badKeyRes)] [] = [] :=
  ⟨C3_loader_amended.1 [("rg", goodRes)] [] "rg" goodTable (by decide),
   C3_loader_amended.2 "rx" badKeyRes [] (by rfl)⟩

/-- Claim C4 counterexample: a single-resource destroy whose drop fails
performs the DDL (the drop is attempted) but does NOT call `save_state`,
refuting "the state is committed at the end of every destroy run even if
the DDL failed". -/
theorem C4_counterexample :
    (destroyOne [("r1", tabR1.to_dict)] "r1" (fun _ => false)).ops = [Op.dropT "t"]
    ∧ (destroyOne [("r1", tabR1.to_dict)] "r1" (fun _ => false)).saved = false := by
  constructor <;> rfl

/-- Claim C4 amended: an apply run with a non-empty plan and a destroy-all
run with a non-empty name map call `save_state` regardless of per-resource
failures; an apply with an empty plan returns without committing; the
single-resource destroy commits exactly when the resource is recorded and
its drop succeeds (on failure nothing is saved). -/
theorem C4_commit_behaviour :
    (∀ tables st ok, plan tables st ≠ [] → (applyRun tables st ok).saved = true)
    ∧ (∀ tables st ok, plan tables st = [] → (applyRun tables st ok).saved = false)
    ∧ (∀ tables st ok, nameToResource tables st ≠ [] →
        (destroyAll tables st ok).saved = true)
    ∧ (∀ st rid ok, (destroyOne st rid ok).saved = true ↔
        ∃ cur, lookupA st rid = some cur ∧ ok (Op.dropT cur.name) = true) :=
  ⟨applyRun_saved_of_nonempty,
   fun tables st ok h => by rw [applyRun_empty tables st ok h],
   destroyAll_saved_of_nonempty,
   destroyOne_saved_iff⟩

theorem C4_witness :
    (applyRun [("ra", tabA)] [] (fun _ => false)).saved = true
    ∧ (applyRun [] [] (fun _ => true)).saved = false
    ∧ (destroyAll [("ra", tabA), ("rb", tabB)] stateAB (fun _ => false)).saved = true
    ∧ ((destroyOne stateAB "ra" (fun _ => true)).saved = true ↔
        ∃ cur, lookupA stateAB "ra" = some cur ∧
          (fun _ => true) (Op.dropT cur.name) = true) :=
  ⟨C4_commit_behaviour.1 [("ra", tabA)] [] (fun _ => false) (by decide),
   C4_commit_behaviour.2.1 [] [] (fun _ => true) (by rfl),
   C4_commit_behaviour.2.2.1 [("ra", tabA), ("rb", tabB)] stateAB (fun _ => false) (by decide),
   C4_commit_behaviour.2.2.2 stateAB "ra" (fun _ => true)⟩

/-- Claim C5: per-resource failure isolation during apply.  The sequence
of attempted adapter operations does not depend on which operations fail
(no failure aborts the rest of a phase), and a resource whose own
operation fails keeps its state entry unchanged. -/
theorem C5_failure_isolation :
    ∀ (tables : List (String × Table)) (st : List (String × TableDict))
      (ok ok' : Op → Bool), (keysA tables).Nodup → (keysA st).Nodup →
    ((applyRun tables st ok).ops = (applyRun tables st ok').ops)
    ∧ (∀ (rid : String) (ch : Change), (rid, ch) ∈ plan tables st →
        ok (opOf ch) = false →
        lookupA (applyRun tables st ok).state rid = lookupA st rid) :=
  fun tables st ok ok' h1 h2 =>
    ⟨applyRun_ops_indep tables st ok ok' h1 h2,
     fun _ _ hm hf => applyRun_state_preserved tables st ok h1 h2 hm hf⟩

theorem C5_witness :
    ((applyRun desiredXY stateOld (fun o => decide (o ≠ Op.createT "A"))).ops
      = (applyRun desiredXY stateOld (fun _ => true)).ops)
    ∧ lookupA (applyRun desiredXY stateOld
        (fun o => decide (o ≠ Op.createT "A"))).state "x" = lookupA stateOld "x" :=
  ⟨(C5_failure_isolation desiredXY stateOld (fun o => decide (o ≠ Op.createT "A"))
      (fun _ => true) (by decide) (by decide)).1,
   (C5_failure_isolation desiredXY stateOld (fun o => decide (o ≠ Op.createT "A"))
      (fun _ => true) (by decide) (by decide)).2 "x" (Change.create tabA)
      (by decide) (by decide)⟩

/-- Claim C6: the planner's output is exactly a create for each desired
resource with no state entry, an update carrying the computed delta for
each desired resource whose recorded descriptor parses into a table that
diffs non-empty (nothing when the delta is empty), and a delete carrying
the recorded name for each state resource absent from the desired map. -/
theorem C6_planner_output :
    ∀ (tables : List (String × Table)) (st : List (String × TableDict)),
    (keysA tables).Nodup → (keysA st).Nodup →
    ∀ (rid : String) (ch : Change),
    (rid, ch) ∈ plan tables st ↔
      ((∃ t, lookupA tables rid = some t ∧ lookupA st rid = none ∧
        ch = Change.create t) ∨
      (∃ t cur, lookupA tables rid = some t ∧ lookupA st rid = some cur ∧
        (compare_tables (Table.from_dict rid cur) t).nonEmpty = true ∧
        ch = Change.update t (compare_tables (Table.from_dict rid cur) t)) ∨
      (∃ cur, lookupA st rid = some cur ∧ lookupA tables rid = none ∧
        ch = Change.delete cur.name)) :=
  fun tables st h1 h2 rid ch => plan_mem_iff tables st h1 h2 rid ch

theorem C6_witness :
    ("oldA", Change.delete "A") ∈ plan desiredXY stateOld ↔
      ((∃ t, lookupA desiredXY "oldA" = some t ∧ lookupA stateOld "oldA" = none ∧
        Change.delete "A" = Change.create t) ∨
      (∃ t cur, lookupA desiredXY "oldA" = some t ∧ lookupA stateOld "oldA" = some cur ∧
        (compare_tables (Table.from_dict "oldA" cur) t).nonEmpty = true ∧
        Change.delete "A" = Change.update t (compare_tables (Table.from_dict "oldA" cur) t)) ∨
      (∃ cur, lookupA stateOld "oldA" = some cur ∧ lookupA desiredXY "oldA" = none ∧
        Change.delete "A" = Change.delete cur.name)) :=
  C6_planner_output desiredXY stateOld (by decide) (by decide) "oldA" (Change.delete "A")

/-- Claim C7: for every acyclic dependency graph built from the desired
set (edge `A → B` iff `A` carries a foreign key to `B` and `B` is a node,
i.e. a desired table name), the topological sort is a permutation of the
graph's nodes in which every referenced table appears strictly before
every table referencing it. -/
theorem C7_topological_sort :
    ∀ (tables : List (String × Table)),
    acyclicB (buildGraph tables) = true →
    (topoSort (buildGraph tables)).Perm (keysA (buildGraph tables))
    ∧ (∀ (rid : String) (t : Table), (rid, t) ∈ tables →
      ∀ fk ∈ fksOrNil t, fk.reference_table ∈ keysA (buildGraph tables) →
      List.indexOf fk.reference_table (topoSort (buildGraph tables)) <
        List.indexOf t.name (topoSort (buildGraph tables))) := by
  intro tables hacy
  obtain ⟨hgood, hperm⟩ := topoSort_spec (buildGraph tables)
    (buildGraph_closed tables) (buildGraph_keys_nodup tables) hacy
  refine ⟨hperm, ?_⟩
  intro rid t hm fk hfk href
  have hedge := buildGraph_edge tables hm hfk href
  have hname : t.name ∈ topoSort (buildGraph tables) := by
    have hk : t.name ∈ keysA (buildGraph tables) :=
      (mem_keysA_buildGraph tables t.name).mpr ⟨(rid, t), hm, rfl⟩
    exact (hperm.mem_iff).mpr hk
  exact (hgood t.name hname fk.reference_table hedge).2

theorem C7_witness :
    (topoSort (buildGraph [("ra", tabA), ("rb", tabB)])).Perm
        (keysA (buildGraph [("ra", tabA), ("rb", tabB)]))
    ∧ List.indexOf fkAB.reference_table (topoSort (buildGraph [("ra", tabA), ("rb", tabB)])) <
        List.indexOf tabA.name (topoSort (buildGraph [("ra", tabA), ("rb", tabB)])) :=
  ⟨(C7_topological_sort [("ra", tabA), ("rb", tabB)] (by decide)).1,
   (C7_topological_sort [("ra", tabA), ("rb", tabB)] (by decide)).2
     "ra" tabA (by decide) fkAB (by decide) (by decide)⟩

/-- Claim C8: the resolver substitutes a connection field exactly when the
entire value has the form `${IDENT}` — returning the environment's value
when `IDENT` is defined and the literal `${IDENT}` unchanged (no error)
when it is not (the `getD` fallback) — and returns any other value,
including partial interpolations, unchanged; `_resolve_vars` is a pure
function of its two fields, so the inputs are never mutated. -/
theorem C8_resolver :
    ∀ (env : List Char → Option (List Char)) (ident u k : List Char),
    (resolveField env ('$' :: '{' :: (ident ++ ['}']))
      = (env ident).getD ('$' :: '{' :: (ident ++ ['}'])))
    ∧ ((¬ ∃ ident', u = '$' :: '{' :: (ident' ++ ['}'])) → resolveField env u = u)
    ∧ resolve_vars env u k = (resolveField env u, resolveField env k) :=
  fun env ident u _ =>
    ⟨resolveField_var env ident, fun h => resolveField_other env u h, rfl⟩

theorem C8_witness :
    (resolveField envX ('$' :: '{' :: (['X'] ++ ['}']))
      = (envX ['X']).getD ('$' :: '{' :: (['X'] ++ ['}'])))
    ∧ (resolveField envX ('$' :: '{' :: (['Y'] ++ ['}']))
      = (envX ['Y']).getD ('$' :: '{' :: (['Y'] ++ ['}'])))
    ∧ resolveField envX ['p', '$', '{', 'X', '}'] = ['p', '$', '{', 'X', '}'] :=
  ⟨(C8_resolver envX ['X'] ['x'] ['x']).1,
   (C8_resolver envX ['Y'] ['x'] ['x']).1,
   (C8_resolver envX ['X'] ['p', '$', '{', 'X', '}'] ['x']).2.1
     (by rintro ⟨i, hi⟩; simp at hi)⟩

/-- Claim C9 counterexample: with the drop-recreate foreign key `fkN'`
(same column tuple as the recorded `fkN`, different `on_delete`) and the
fresh `fkF`, the additions come out `[fkF, fkN']` although the order of
appearance in the desired table is `[fkN', fkF]`; dually the removals
come out `[fkN, fkR]` against the recorded order `[fkR, fkN]`.  So the
diff is NOT order-stable in the claimed sense. -/
theorem C9_counterexample :
    (compare_tables oldT9 newT9).add_foreign_keys = [fkF, fkN']
    ∧ (fksOrNil newT9).filter
        (fun fk => memB fk (compare_tables oldT9 newT9).add_foreign_keys) = [fkN', fkF]
    ∧ (compare_tables oldT9 newT9).add_foreign_keys ≠
        (fksOrNil newT9).filter
          (fun fk => memB fk (compare_tables oldT9 newT9).add_foreign_keys)
    ∧ (compare_tables oldT9 newT9).remove_foreign_keys = [fkN, fkR]
    ∧ (fksOrNil oldT9).filter
        (fun fk => memB fk (compare_tables oldT9 newT9).remove_foreign_keys) = [fkR, fkN]
    ∧ (compare_tables oldT9 newT9).remove_foreign_keys ≠
        (fksOrNil oldT9).filter
          (fun fk => memB fk (compare_tables oldT9 newT9).remove_foreign_keys) := by
  decide

/-- Claim C9 amended: the diff (a pure function, hence deterministic) is
order-stable in the corrected sense: column additions/modifications
follow the order of appearance in `new` and column removals the order in
`old`; `add_foreign_keys` is the fresh tuples in `new` order FOLLOWED BY
the drop-recreate re-additions in `new` order, and `remove_foreign_keys`
is the drop-recreate removals (ordered by the tuple's appearance in
`new`) followed by the old-only removals in `old` order. -/
theorem C9_order_stability :
    ∀ (o n : Table),
    (o.columns.map Column.name).Nodup → (n.columns.map Column.name).Nodup →
    ((fksOrNil o).map ForeignKey.columns).Nodup →
    ((fksOrNil n).map ForeignKey.columns).Nodup →
    compare_tables o n =
      { add_columns :=
          n.columns.filter (fun c => !memB c.name (o.columns.map Column.name))
        modify_columns := n.columns.filterMap (changedAt Column.name Column.equalsB o.columns)
        remove_columns :=
          o.columns.filter (fun c => !memB c.name (n.columns.map Column.name))
        modify_primary_key :=
          if o.primary_key = n.primary_key then none
          else some (o.primary_key, n.primary_key)
        add_foreign_keys :=
          (fksOrNil n).filter
            (fun fk => !memB fk.columns ((fksOrNil o).map ForeignKey.columns))
          ++ (fksOrNil n).filterMap (fun fk =>
            (changedAt ForeignKey.columns ForeignKey.equalsB (fksOrNil o) fk).map Prod.snd)
        remove_foreign_keys :=
          (fksOrNil n).filterMap (fun fk =>
            (changedAt ForeignKey.columns ForeignKey.equalsB (fksOrNil o) fk).map Prod.fst)
          ++ (fksOrNil o).filter
            (fun fk => !memB fk.columns ((fksOrNil n).map ForeignKey.columns)) } :=
  fun o n h1 h2 h3 h4 => compare_tables_characterization o n h1 h2 h3 h4

theorem C9_witness :
    compare_tables oldT9 newT9 =
      { add_columns :=
          newT9.columns.filter (fun c => !memB c.name (oldT9.columns.map Column.name))
        modify_columns :=
          newT9.columns.filterMap (changedAt Column.name Column.equalsB oldT9.columns)
        remove_columns :=
          oldT9.columns.filter (fun c => !memB c.name (newT9.columns.map Column.name))
        modify_primary_key :=
          if oldT9.primary_key = newT9.primary_key then none
          else some (oldT9.primary_key, newT9.primary_key)
        add_foreign_keys :=
          (fksOrNil newT9).filter
            (fun fk => !memB fk.columns ((fksOrNil oldT9).map ForeignKey.columns))
          ++ (fksOrNil newT9).filterMap (fun fk =>
            (changedAt ForeignKey.columns ForeignKey.equalsB (fksOrNil oldT9) fk).map Prod.snd)
        remove_foreign_keys :=
          (fksOrNil newT9).filterMap (fun fk =>
            (changedAt ForeignKey.columns ForeignKey.equalsB (fksOrNil oldT9) fk).map Prod.fst)
          ++ (fksOrNil oldT9).filter
            (fun fk => !memB fk.columns ((fksOrNil newT9).map ForeignKey.columns)) } :=
  C9_order_stability oldT9 newT9 (by decide) (by decide) (by decide) (by decide)

/-- Claim C10 (implicit): apply regroups planned changes into per-phase
dicts keyed by TABLE NAME, so the grouped action for a name is the LAST
planned change with that name — an earlier same-name resource is
overwritten.  Concretely, with two creates both named `t`, only one
`create` is executed, only the later resource `r2` is recorded, and `r1`
is silently dropped from the run. -/
theorem C10_name_collision :
    (∀ (changes : List (String × Change)) (name : String),
      lookupA (groupUpdates changes) name =
        (changes.filterMap (fun p => match p.2 with
          | Change.update t tc => if t.name = name then some (p.1, t, tc) else none
          | _ => none)).getLast?)
    ∧ (∀ (changes : List (String × Change)) (name : String),
      lookupA (groupCreates changes) name =
        (changes.filterMap (fun p => match p.2 with
          | Change.create t => if t.name = name then some (p.1, t) else none
          | _ => none)).getLast?)
    ∧ (∀ (changes : List (String × Change)) (name : String),
      lookupA (groupDeletes changes) name =
        (changes.filterMap (fun p => match p.2 with
          | Change.delete m => if m = name then some p.1 else none
          | _ => none)).getLast?)
    ∧ (applyRun [("r1", tabR1), ("r2", tabR2)] [] (fun _ => true)).ops = [Op.createT "t"]
    ∧ lookupA (applyRun [("r1", tabR1), ("r2", tabR2)] [] (fun _ => true)).state "r1" = none
    ∧ lookupA (applyRun [("r1", tabR1), ("r2", tabR2)] [] (fun _ => true)).state "r2"
        = some tabR2.to_dict := by
  refine ⟨groupUpdates_lookup, groupCreates_lookup, groupDeletes_lookup, ?_, ?_, ?_⟩ <;> rfl

end Aqua
